import Mathlib

/-!
# Verification model of `catminer` (WWU-CAD-Autograder/catminer)

Shallow embedding of `src/catminer/catminer.py`.  Filesystem trees are modelled
by the nested inductive `Entry`; paths are lists of path components.  The two
regular expressions of the source,

* `type_re = (?<=\.CAT)[^.]*?$`  — matches iff the text after the *last* dot of
  the string starts with `"CAT"`; the match is that text with `"CAT"` stripped;
* `file_re = [^\\/]+(?=\.)` with `findall(...)[0]` — the first path component
  that contains a dot at index ≥ 1, truncated at its last such dot,

are modelled by `isCat`/`kindOf` (applied to one component) and
`pathCatSuffix`/`isCatPath`/`pathKind` (applied to a full slash-joined path;
the suffix after the last dot may span `/` separators, which the component-wise
`pcsAux` reproduces) and `upToLastDot?`/`fileReFirst`.

Modelling assumptions, stated once here:
* the absolute input and output roots are distinct, neither contains the other,
  and their own path components contain no dot and no `".CATProcess"` substring;
  paths are represented relative to these roots (the staging root appears as the
  explicit component `".catminer"` under the output root);
* component names contain no slash (true of any on-disk name; zip member paths
  are modelled as component lists);
* the `logs` directory that the constructor creates under the output root (and
  the log files in it) is logging infrastructure and is not part of the
  modelled output tree;
* `zipfile.namelist()` is modelled as returning the member *file* paths (no
  separate directory entries), and `extractall` is modelled as failing
  (without partial effects) when some member of the archive being extracted is
  unreadable.
-/

namespace Catminer

/-- Characters of `s` after its last `'.'`, or `none` when `s` has no dot. -/
def afterLastDot? (s : String) : Option String :=
  if s.data.contains '.' then some ⟨(s.data.reverse.takeWhile (· ≠ '.')).reverse⟩
  else none

/-- Does the string start with `"CAT"`? (case-sensitive, as in `type_re`). -/
def startsWithCAT (s : String) : Bool := s.data.take 3 == "CAT".data

/-- `type_re.search(s) ≠ None` for a single string `s`:
the text after the last dot starts with `"CAT"`. -/
def isCat (s : String) : Bool :=
  ((afterLastDot? s).map startsWithCAT).getD false

/-- `type_re.findall(s)[0]`: the text after the last dot with `"CAT"` stripped.
(Meaningful only when `isCat s`.) -/
def kindOf (s : String) : String :=
  ⟨((afterLastDot? s).getD "").data.drop 3⟩

/-- The single-component `file_re` match: the prefix of `s` up to its last dot,
provided that prefix is nonempty; `none` otherwise. -/
def upToLastDot? (s : String) : Option String :=
  match s.data.reverse.dropWhile (· ≠ '.') with
  | [] => none
  | _ :: rest => if rest.isEmpty then none else some ⟨rest.reverse⟩

/-- A path, as the list of its components below the (elided) root. -/
abbrev Path := List String

/-- Helper for `pathCatSuffix`: the components are given in *reverse* order
(last component first).  Computes the text after the last dot of the
slash-joined path. -/
def pcsAux : List String → Option String
  | [] => none
  | c :: rest =>
    match afterLastDot? c with
    | some t => some t
    | none => (pcsAux rest).map (fun t => t ++ "/" ++ c)

/-- Text after the last dot of the slash-joined path (may span `/`). -/
def pathCatSuffix (p : Path) : Option String := pcsAux p.reverse

/-- `type_re.search(file_path)` on a full (root-elided) path. -/
def isCatPath (p : Path) : Bool :=
  ((pathCatSuffix p).map startsWithCAT).getD false

/-- `type_re.findall(file_path)[0]` on a full path, `"CAT"` stripped. -/
def pathKind (p : Path) : String :=
  ⟨((pathCatSuffix p).getD "").data.drop 3⟩

/-- `file_re.findall(path)[0]`: first component admitting an `upToLastDot?`
match.  Returns `none` when `findall` returns `[]` (then `[0]` raises). -/
def fileReFirst (p : Path) : Option String := p.findSome? upToLastDot?

/-- Substring test on character lists (contiguous). -/
def isSubList (pat l : List Char) : Bool :=
  if pat.isPrefixOf l then true
  else
    match l with
    | [] => pat.isEmpty
    | _ :: rest => isSubList pat rest

/-- `pat in s` (Python substring test). -/
def hasSub (pat s : String) : Bool := isSubList pat.data s.data

/-- `".CATProcess" in file_path` for a root-elided component list. -/
def hasCATProcess (p : Path) : Bool := p.any (fun c => hasSub ".CATProcess" c)

/-- `str.lower()` on the ASCII kind strings at play. -/
def asciiLower (s : String) : String :=
  ⟨s.data.map (fun c => if 'A' ≤ c && c ≤ 'Z' then Char.ofNat (c.toNat + 32) else c)⟩

/-- No dot anywhere in the component. -/
def dotFree (s : String) : Bool := !(s.data.contains '.')

/-- A path component that cannot influence the path-level regex matches:
either dot-free, or the staging root `".catminer"`. -/
def benignComp (c : String) : Bool := dotFree c || c == ".catminer"

/-- All components benign. -/
def benignPath (p : Path) : Bool := p.all benignComp

/-- All components dot-free. -/
def cleanPath (p : Path) : Bool := p.all dotFree

/-!
## The filesystem / archive tree

`dir` is a directory; `raw` a file whose bytes do not form a zip archive;
`zip` a file whose bytes form a readable zip archive with the given member
tree; `unreadable` an archive member whose bytes cannot be read
(`ZipFile.read` raises on it).
-/

inductive Entry where
  | dir (name : String) (children : List Entry)
  | raw (name : String)
  | zip (name : String) (members : List Entry)
  | unreadable (name : String)

namespace Entry

def name : Entry → String
  | .dir n _ => n
  | .raw n => n
  | .zip n _ => n
  | .unreadable n => n

end Entry

/-!
`countL`: number of documents the crawl would advance the progress bar for
(the crawl's view: archives are descended into unless the `".CATProcess"`
exemption makes them documents).
-/
mutual
def countE : Entry → Nat
  | .dir _ cs => countL cs
  | .raw n => if isCat n then 1 else 0
  | .zip n ms => if isCat n then 1 else countL ms
  | .unreadable n => if isCat n then 1 else 0
def countL : List Entry → Nat
  | [] => 0
  | e :: es => countE e + countL es
end

/-!
`tidyL`: well-formedness of a tree under which the crawl and the catalog count
agree and no error path of the source is reached:
* directory names are dot-free;
* a document (a `raw` file whose name matches `type_re`) has a nonempty stem
  before its last dot (else `file_re.findall(...)[0]` raises `IndexError`);
* an archive whose name contains `".CATProcess"` is a document
  (name matches `type_re`, nonempty stem) — the process-kind exemption;
* any other archive has a name of the shape `stem.ext` with exactly one dot,
  a nonempty dot-free stem, a name not matching `type_re`, and well-formed,
  readable members;
* no entry is `unreadable`.
-/
mutual
def tidyE : Entry → Bool
  | .dir n cs => dotFree n && tidyL cs
  | .raw n => !isCat n || (upToLastDot? n).isSome
  | .zip n ms =>
      if hasSub ".CATProcess" n then isCat n && (upToLastDot? n).isSome
      else !isCat n &&
        (match upToLastDot? n with
         | some b => dotFree b
         | none => false) &&
        tidyL ms
  | .unreadable _ => false
def tidyL : List Entry → Bool
  | [] => true
  | e :: es => tidyE e && tidyL es
end

/-!
`extractOkL`: `extractall` succeeds — no member of this archive (reachable
without passing through a nested archive) is unreadable.
-/
mutual
def extractOkE : Entry → Bool
  | .dir _ cs => extractOkL cs
  | .unreadable _ => false
  | _ => true
def extractOkL : List Entry → Bool
  | [] => true
  | e :: es => extractOkE e && extractOkL es
end

/-!
## `cat_count` (source lines 50–81)

Walks the directory tree; a file whose *name* matches `type_re` counts as a
document; otherwise, if its bytes form a zip archive, its members are
inspected by name (`process_zip`), recursively for nested archives, without
extraction.  `process_zip` reads every member's bytes before classifying it,
so an unreadable member raises.
-/

inductive CountErr where
  | memberRead   -- `zipfile.read(name)` raised on an unreadable member
deriving Repr, DecidableEq

mutual
def cat_countE : Entry → Except CountErr Nat
  | .dir _ cs => cat_countL cs
  | .raw n => .ok (if isCat n then 1 else 0)
  | .unreadable n => .ok (if isCat n then 1 else 0)
  | .zip n ms => if isCat n then .ok 1 else process_zipL [] ms
def cat_countL : List Entry → Except CountErr Nat
  | [] => .ok 0
  | e :: es => do
      let a ← cat_countE e
      let b ← cat_countL es
      return a + b
/-- `process_zip` over the member tree of one archive; `pre` is the internal
directory prefix of the member path within the archive. -/
def process_zipE (pre : Path) : Entry → Except CountErr Nat
  | .dir nm cs => process_zipL (pre ++ [nm]) cs
  | .raw nm => .ok (if isCatPath (pre ++ [nm]) then 1 else 0)
  | .unreadable _ => .error .memberRead
  | .zip nm ms =>
      if isCatPath (pre ++ [nm]) then .ok 1 else process_zipL [] ms
def process_zipL (pre : Path) : List Entry → Except CountErr Nat
  | [] => .ok 0
  | e :: es => do
      let a ← process_zipE pre e
      let b ← process_zipL pre es
      return a + b
end

/-- Total count for one tree (the input directory's listing). -/
def cat_count (tree : List Entry) : Except CountErr Nat := cat_countL tree

/-!
## The crawl (`CATMiner._dir_crawl`, lines 208–278) and its state

The output filesystem is a set of directory and file paths relative to the
output root (kept as lists; only membership matters).  The log is the ordered
stream of emitted records, newest first.  `fileNum` is `self._file_num`,
`adv` the number of `self._pbar.update(1)` calls.
-/

inductive Ev where
  | created (p : Path)                      -- "Created path <p>."
  | removing (p : Path)                     -- "Removing <p>."
  | skippedExt (n : String) (i total : Nat) -- "Skipping ... File extension in the skip list!"
  | skippedDone (n : String) (i total : Nat) -- "Skipping ... File already exported!"
  | openingEv (n : String) (i total : Nat)  -- "Opening ..."
  | exportedEv (n : String)                 -- timer lines around exporter.save
  | tmpMissingEv                            -- error: '".catminer" not found!'
  | gracefulStop                            -- critical: user break detected
  | criticalErr                             -- critical: logged traceback
  | finishedBatch                           -- "Finished batch export in <m> minutes."
deriving Repr, DecidableEq

structure St where
  dirs : List Path
  files : List Path
  log : List Ev
  fileNum : Nat
  adv : Nat
deriving Repr, DecidableEq

def St.init : St := ⟨[], [], [], 1, 0⟩

inductive Err where
  | indexError    -- file_re.findall(...)[0] with no match
  | keyError      -- extension_dict[str(self._file_type)] miss
  | extractError  -- extractall raised on an unreadable member
  | exportError   -- exporter.save raised
  | interrupt     -- KeyboardInterrupt raised during the crawl
deriving Repr, DecidableEq

/-- Configuration surface consumed by the crawl.  `orc` is the outcome of the
external automation capability's export for the document at the given input
path (`none` = success) — the export itself is outside the modelled core. -/
structure Cfg where
  file_type : Nat := 0
  skip_ext : List String := []
  force_export : Bool := false
  orc : Path → Option Err := fun _ => none
  total : Nat := 0

/-- `os.path.exists` under the output root (the root itself always exists). -/
def existsP (s : St) (p : Path) : Bool :=
  p.isEmpty || s.dirs.contains p || s.files.contains p

/-- `if not os.path.exists(q): log Created; os.mkdir(q)`. -/
def mkdirIfAbsent (s : St) (p : Path) : St :=
  if existsP s p then s
  else { s with dirs := p :: s.dirs, log := .created p :: s.log }

/-- Nonempty prefixes of a path. -/
def nonNilInits (p : Path) : List Path := p.inits.filter (fun q => !q.isEmpty)

/-- `if not os.path.exists(p): log Created; os.makedirs(p, exist_ok=True)` —
creates all missing intermediate directories, one log line. -/
def makedirs (s : St) (p : Path) : St :=
  if existsP s p then s
  else { s with dirs := nonNilInits p ++ s.dirs, log := .created p :: s.log }

/-- `shutil.rmtree p`: removes `p` and everything below it. -/
def rmtree (s : St) (p : Path) : St :=
  { s with dirs := s.dirs.filter (fun q => !(p.isPrefixOf q)),
           files := s.files.filter (fun q => !(p.isPrefixOf q)) }

/-- `extension_dict = {str(XML): '.xml', str(JSON): '.json'}` lookup;
`none` models the `KeyError` for any other `file_type`. -/
def extension_dict (file_type : Nat) : Option String :=
  if file_type = 0 then some ".xml" else if file_type = 1 then some ".json" else none

/-- The extension the exporter actually writes (lines 352–355):
`JSONExport` iff `file_type == 1`, otherwise `XMLExport`. -/
def extExport (file_type : Nat) : String :=
  if file_type = 1 then ".json" else ".xml"

/-- The export gate (lines 256–276): decision for one candidate document.
`kind` is `type_re.findall(file_path)[0]`, `fname` the directory-entry name,
`outDirExists` is `os.path.exists(out_dir)`, `artExists a` is
`os.path.exists(os.path.join(out_dir, a))`. -/
inductive Gate where
  | proceed
  | skipBlacklist
  | skipExported
  | keyErr
deriving Repr, DecidableEq

def exportGate (cfg : Cfg) (kind : String) (fname : String)
    (outDirExists : Bool) (artExists : String → Bool) : Gate :=
  if cfg.skip_ext.contains (asciiLower kind) then .skipBlacklist
  else if !cfg.force_export && outDirExists then
    match extension_dict cfg.file_type with
    | none => .keyErr
    | some ext => if artExists (fname ++ ext) then .skipExported else .proceed
  else .proceed

/-- `CATMiner._export_file` (lines 326–366).  The document is opened, the
export target resolved (`_cat_type`, no filesystem effect), the exporter
saves `full_name + ext` into `out_dir`; `finally` closes the document. -/
def openSt (cfg : Cfg) (full_name : String) (s : St) : St :=
  { s with log := .openingEv full_name s.fileNum cfg.total :: s.log }

def savedSt (cfg : Cfg) (full_name : String) (outP : Path) (s : St) : St :=
  { s with files := (outP ++ [full_name ++ extExport cfg.file_type]) :: s.files,
           log := .exportedEv full_name
             :: .openingEv full_name s.fileNum cfg.total :: s.log,
           fileNum := s.fileNum + 1, adv := s.adv + 1 }

def export_file (cfg : Cfg) (filePath : Path) (outP : Path) (s : St) :
    St × Option Err :=
  match fileReFirst filePath with
  | none => (s, some .indexError)
  | some file_name =>
    match cfg.orc filePath with
    | some e => (openSt cfg (file_name ++ ".CAT" ++ pathKind filePath) s, some e)
    | none => (savedSt cfg (file_name ++ ".CAT" ++ pathKind filePath) outP s, none)

/-- The document arm of the crawl (lines 256–278): gate, then skip or export;
every skip logs a warning with the running index and total and advances the
progress bar. -/
def docStep (cfg : Cfg) (nm : String) (inP outP : Path) (s : St) :
    St × Option Err :=
  let filePath := inP ++ [nm]
  match exportGate cfg (pathKind filePath) nm (existsP s outP)
      (fun a => existsP s (outP ++ [a])) with
  | .skipBlacklist =>
      ({ s with log := .skippedExt nm s.fileNum cfg.total :: s.log,
                fileNum := s.fileNum + 1, adv := s.adv + 1 }, none)
  | .skipExported =>
      ({ s with log := .skippedDone nm s.fileNum cfg.total :: s.log,
                fileNum := s.fileNum + 1, adv := s.adv + 1 }, none)
  | .keyErr => (s, some .keyError)
  | .proceed => export_file cfg filePath outP s
end Catminer

namespace Catminer

/-!
`dir_crawlL`: `CATMiner._dir_crawl`.  Per entry: directories are mirrored and
recursed into; a zip file whose path does not contain `".CATProcess"` is
extracted into the staging workspace `out/.catminer/<relative mirror path>`
and the staged tree is crawled, after which the staging directory is removed
— but only when that sub-crawl returns normally (the source has no
`try/finally` there); any other file whose path matches `type_re` is a
document.  The `file_path == self._out_dir` guard never fires because the
roots are modelled as disjoint.
-/
mutual
def dir_crawlE (cfg : Cfg) : Entry → Path → Path → St → St × Option Err
  | .dir nm cs, inP, outP, s =>
      let dir_path := outP ++ [nm]
      let s1 := mkdirIfAbsent s dir_path
      dir_crawlL cfg cs (inP ++ [nm]) dir_path s1
  | .zip nm ms, inP, outP, s =>
      let filePath := inP ++ [nm]
      if hasCATProcess filePath then
        if isCatPath filePath then docStep cfg nm inP outP s else (s, none)
      else
        match fileReFirst filePath with
        | none => (s, some .indexError)
        | some base =>
          let new_out_dir := outP ++ [base]
          let tmp_path : Path := ".catminer" :: new_out_dir
          let s1 := mkdirIfAbsent s new_out_dir
          let s2 := makedirs s1 tmp_path
          if extractOkL ms then
            match dir_crawlL cfg ms tmp_path new_out_dir s2 with
            | (s3, some e) => (s3, some e)
            | (s3, none) =>
                (rmtree { s3 with log := .removing tmp_path :: s3.log } tmp_path,
                 none)
          else (s2, some .extractError)
  | .raw nm, inP, outP, s =>
      if isCatPath (inP ++ [nm]) then docStep cfg nm inP outP s else (s, none)
  | .unreadable nm, inP, outP, s =>
      if isCatPath (inP ++ [nm]) then docStep cfg nm inP outP s else (s, none)
def dir_crawlL (cfg : Cfg) : List Entry → Path → Path → St → St × Option Err
  | [], _, _, s => (s, none)
  | e :: es, inP, outP, s =>
      match dir_crawlE cfg e inP outP s with
      | (s1, some err) => (s1, some err)
      | (s1, none) => dir_crawlL cfg es inP outP s1
end

/-- Strict extension: `p` lies strictly below `d`. -/
def strictExtends (d p : Path) : Bool := d.isPrefixOf p && !(d == p)

/-- `rm_empty_dirs` (lines 84–99).  The source's single post-order pass
removes exactly the directories whose listing was empty when visited: the
recursive call's unconditional `return True` marks every visited subdirectory
as "a file exists", so a directory whose entries were all just-removed empty
subdirectories is kept.  With a prefix-closed directory set this is: remove
`d` iff nothing lies strictly below `d`. -/
def rm_empty_dirs (s : St) : St :=
  { s with dirs := s.dirs.filter (fun d =>
      s.dirs.any (strictExtends d) || s.files.any (strictExtends d)) }

/-- `CATMiner._finish` (lines 368–385): log and remove the staging root
(`FileNotFoundError` → non-fatal error log), remove empty directories,
close the progress bar, log the minutes summary. -/
def finishRun (s : St) : St :=
  let s1 := { s with log := .removing [".catminer"] :: s.log }
  let s2 :=
    if s1.dirs.contains ([".catminer"] : Path) then rmtree s1 [".catminer"]
    else { s1 with log := .tmpMissingEv :: s1.log }
  let s3 := rm_empty_dirs s2
  { s3 with log := .finishedBatch :: s3.log }

structure RunOut where
  final : St
  crawlErr : Option Err
deriving Repr

/-- `CATMiner.begin` (lines 174–206) from a given initial output-tree state:
`cat_count` runs before the `try` block (its exceptions propagate, as the
`Except` layer); the crawl's `KeyboardInterrupt` is logged as a graceful
stop, any other exception is logged as criticals, and `finally` runs
`_finish` in every case. -/
def beginRunFrom (cfg : Cfg) (tree : List Entry) (s0 : St) :
    Except CountErr RunOut :=
  match cat_count tree with
  | .error e => .error e
  | .ok n =>
    let cfg1 := { cfg with total := n }
    let r := dir_crawlL cfg1 tree [] [] s0
    let s :=
      match r.2 with
      | none => r.1
      | some .interrupt => { r.1 with log := .gracefulStop :: r.1.log }
      | some _ => { r.1 with log := .criticalErr :: r.1.log }
    .ok ⟨finishRun s, r.2⟩

/-- A fresh run on the same output tree: directories and files persist,
process state (log, counters) is fresh. -/
def carryFS (s : St) : St := { dirs := s.dirs, files := s.files, log := [], fileNum := 1, adv := 0 }

/-!
## `_cat_type` (lines 280–324)
-/

inductive Browser where
  | app            -- pyvba.Browser("CATIA.Application")
  | activeDocument -- browser.ActiveDocument
  | product        -- browser.ActiveDocument.Product
  | part           -- browser.ActiveDocument.Part
  | drawingRoot    -- browser.ActiveDocument.DrawingRoot
  | pprDocument    -- browser.ActiveDocument.PPRDocument
deriving Repr, DecidableEq

/-- The kind dispatch inside the `try` block (lines 304–315). -/
def catDispatch (active_doc : Bool) (file_type : String) : Browser :=
  if active_doc then .activeDocument
  else if file_type = "Product" then .product
  else if file_type = "Part" then .part
  else if file_type = "Drawing" then .drawingRoot
  else if file_type = "Process" then .pprDocument
  else .activeDocument

/-- `_cat_type` with the retry recursion made explicit.  `failsAt k` = the
`try` block raises `AttributeError` on attempt `k`; `fuel` bounds the
modelled recursion depth (`none` = still recursing after `fuel` attempts,
the unbounded-recursion case).  On success the result is (returned browser,
total number of attempts).  When an attempt fails, the `except` arm sleeps,
recurses, and *discards* the recursive result; the local `browser` variable
still holds the fresh top-level application browser, which is returned. -/
def cat_type (failsAt : Nat → Bool) (active_doc : Bool) (file_type : String) :
    Nat → Nat → Option (Browser × Nat)
  | _, 0 => none
  | k, fuel + 1 =>
    if failsAt k then
      (cat_type failsAt active_doc file_type (k + 1) fuel).map
        (fun r => (Browser.app, r.2))
    else some (catDispatch active_doc file_type, k + 1)

/-!
## Log-line formats (`timer`, line 27–47; `_export_file` line 345;
`_finish` line 385)

Elapsed times are modelled by the already-rounded integer the format prints:
`fmt4 t` renders `t` ten-thousandths of a second as `<int>.<4 digits>`,
`fmt2 t` renders `t` hundredths of a minute as `<int>.<2 digits>`.
-/

def digitChar (n : Nat) : Char :=
  match n % 10 with
  | 0 => '0' | 1 => '1' | 2 => '2' | 3 => '3' | 4 => '4'
  | 5 => '5' | 6 => '6' | 7 => '7' | 8 => '8' | _ => '9'

/-- `f"{x:.4f}"`. -/
def fmt4 (t : Nat) : String :=
  toString (t / 10000) ++ "." ++
    ⟨[digitChar (t / 1000), digitChar (t / 100), digitChar (t / 10), digitChar t]⟩

/-- `f"{x:.2f}"`. -/
def fmt2 (t : Nat) : String :=
  toString (t / 100) ++ "." ++ ⟨[digitChar (t / 10), digitChar t]⟩

/-- The timer decorator's completion line (line 40), wrapped only around the
per-document `exporter.save` call (line 358). -/
def timerMsg (task : String) (elapsed4 : Nat) : String :=
  "Finished " ++ task ++ " in " ++ fmt4 elapsed4 ++ " seconds."

/-- The open-event line (line 345) — no elapsed time. -/
def openingMsg (full_name : String) (i total : Nat) : String :=
  "Opening \"" ++ full_name ++ "\" (" ++ toString i ++ "/" ++ toString total ++ ")."

/-- The finish-event line (line 385) — minutes with two decimals. -/
def finishMsg (elapsedMin2 : Nat) : String :=
  "Finished batch export in " ++ fmt2 elapsedMin2 ++ " minutes.\n"

/-- The phrase pattern `Finished <task> in <seconds> seconds`. -/
def followsTimerPattern (msg : String) : Bool :=
  hasSub "Finished " msg && hasSub " seconds" msg

/-!
Event classifiers used to state log-stream properties.
-/

def Ev.isSkippedDone : Ev → Bool
  | .skippedDone .. => true
  | _ => false

def Ev.isSkippedExt : Ev → Bool
  | .skippedExt .. => true
  | _ => false

def Ev.isOpening : Ev → Bool
  | .openingEv .. => true
  | _ => false

/-!
Pure denotations of the crawl's effect on the output tree, used to state the
tree-shaped claims.  `mirrorsL` is the set of mirror directories the crawl
creates outside the staging workspace; `artifactsL` the artifact files the
run guarantees to exist afterwards; `blkL` the number of documents the
extension blacklist skips.
-/

mutual
def mirrorsE (outP : Path) : Entry → List Path
  | .dir n cs => (outP ++ [n]) :: mirrorsL (outP ++ [n]) cs
  | .zip n ms =>
      if hasSub ".CATProcess" n then []
      else
        match upToLastDot? n with
        | some b => (outP ++ [b]) :: mirrorsL (outP ++ [b]) ms
        | none => []
  | .raw _ => []
  | .unreadable _ => []
def mirrorsL (outP : Path) : List Entry → List Path
  | [] => []
  | e :: es => mirrorsE outP e ++ mirrorsL outP es
end

/-- Is this name a document whose kind survives the extension blacklist? -/
def exportedDoc (cfg : Cfg) (n : String) : Bool :=
  isCat n && !(cfg.skip_ext.contains (asciiLower (kindOf n)))

mutual
def artifactsE (cfg : Cfg) (outP : Path) : Entry → List Path
  | .dir n cs => artifactsL cfg (outP ++ [n]) cs
  | .raw n =>
      if exportedDoc cfg n then [outP ++ [n ++ extExport cfg.file_type]] else []
  | .zip n ms =>
      if hasSub ".CATProcess" n then
        (if exportedDoc cfg n then [outP ++ [n ++ extExport cfg.file_type]] else [])
      else
        match upToLastDot? n with
        | some b => artifactsL cfg (outP ++ [b]) ms
        | none => []
  | .unreadable n =>
      if exportedDoc cfg n then [outP ++ [n ++ extExport cfg.file_type]] else []
def artifactsL (cfg : Cfg) (outP : Path) : List Entry → List Path
  | [] => []
  | e :: es => artifactsE cfg outP e ++ artifactsL cfg outP es
end

mutual
def blkE (cfg : Cfg) : Entry → Nat
  | .dir _ cs => blkL cfg cs
  | .raw n => if isCat n && cfg.skip_ext.contains (asciiLower (kindOf n)) then 1 else 0
  | .zip n ms =>
      if hasSub ".CATProcess" n then
        (if isCat n && cfg.skip_ext.contains (asciiLower (kindOf n)) then 1 else 0)
      else blkL cfg ms
  | .unreadable n => if isCat n && cfg.skip_ext.contains (asciiLower (kindOf n)) then 1 else 0
def blkL (cfg : Cfg) : List Entry → Nat
  | [] => 0
  | e :: es => blkE cfg e + blkL cfg es
end

/-!
`okDocsL`: number of documents that pass the extension blacklist.
-/
mutual
def okDocsE (cfg : Cfg) : Entry → Nat
  | .dir _ cs => okDocsL cfg cs
  | .raw n => if exportedDoc cfg n then 1 else 0
  | .zip n ms =>
      if hasSub ".CATProcess" n then (if exportedDoc cfg n then 1 else 0)
      else okDocsL cfg ms
  | .unreadable n => if exportedDoc cfg n then 1 else 0
def okDocsL (cfg : Cfg) : List Entry → Nat
  | [] => 0
  | e :: es => okDocsE cfg e + okDocsL cfg es
end

/-!
State invariants maintained by the crawl, used to characterize complete runs.
-/

/-- Every output directory path is nonempty and consists of benign
components. -/
def dirsOk (s : St) : Prop :=
  ∀ p ∈ s.dirs, p ≠ [] ∧ ∀ c ∈ p, benignComp c = true

/-- Every output file path ends in a dotted non-`".catminer"` component
(artifact-shaped) and does not sit inside the staging workspace. -/
def filesOk (s : St) : Prop :=
  ∀ p ∈ s.files,
    (∃ q c, p = q ++ [c] ∧ dotFree c = false ∧ c ≠ ".catminer") ∧
    p.head? ≠ some ".catminer"

/-- The directory set is prefix-closed (as any real directory tree is). -/
def prefixClosed (s : St) : Prop :=
  ∀ p ∈ s.dirs, ∀ q : Path, q.isPrefixOf p = true → q ≠ [] → q ∈ s.dirs

def stOk (s : St) : Prop := dirsOk s ∧ filesOk s ∧ prefixClosed s

/-- Conclusions of the crawl characterization on a well-formed tree:
the crawl returns normally; invariants are preserved; the progress bar
advances once per document; afterwards the artifact set is exactly the
expected artifacts plus what was already there; outside the staging
workspace the directory set is exactly the expected mirrors plus what was
already there; and when every expected artifact already exists (and
force-export is off) the crawl opens nothing and logs one skip per
document, split between the two skip reasons. -/
def CrawlSpec (cfg : Cfg) (es : List Entry) (outP : Path) (s s1 : St) : Prop :=
  stOk s1 ∧
  s1.adv = s.adv + countL es ∧
  (∀ p, p ∈ s1.files ↔ p ∈ artifactsL cfg outP es ∨ p ∈ s.files) ∧
  (∀ p : Path, p.head? ≠ some ".catminer" →
    (p ∈ s1.dirs ↔ p ∈ mirrorsL outP es ∨ p ∈ s.dirs)) ∧
  ((∀ a ∈ artifactsL cfg outP es, a ∈ s.files) → cfg.force_export = false →
    s1.log.countP Ev.isOpening = s.log.countP Ev.isOpening ∧
    s1.log.countP Ev.isSkippedDone
      = s.log.countP Ev.isSkippedDone + okDocsL cfg es ∧
    s1.log.countP Ev.isSkippedExt
      = s.log.countP Ev.isSkippedExt + blkL cfg es)

/-- The per-entry version of `CrawlSpec`. -/
def CrawlSpecE (cfg : Cfg) (e : Entry) (outP : Path) (s s1 : St) : Prop :=
  stOk s1 ∧
  s1.adv = s.adv + countE e ∧
  (∀ p, p ∈ s1.files ↔ p ∈ artifactsE cfg outP e ∨ p ∈ s.files) ∧
  (∀ p : Path, p.head? ≠ some ".catminer" →
    (p ∈ s1.dirs ↔ p ∈ mirrorsE outP e ∨ p ∈ s.dirs)) ∧
  ((∀ a ∈ artifactsE cfg outP e, a ∈ s.files) → cfg.force_export = false →
    s1.log.countP Ev.isOpening = s.log.countP Ev.isOpening ∧
    s1.log.countP Ev.isSkippedDone
      = s.log.countP Ev.isSkippedDone + okDocsE cfg e ∧
    s1.log.countP Ev.isSkippedExt
      = s.log.countP Ev.isSkippedExt + blkE cfg e)

/-!
Observation maps used to state concrete end-to-end facts about whole runs
(`Option` so that the error case is visible in the observed value).
-/

def countView (tree : List Entry) : Option Nat :=
  match cat_count tree with
  | .ok n => some n
  | .error _ => none

def runView (cfg : Cfg) (tree : List Entry) :
    Option (List Path × List Path × Option Err) :=
  match beginRunFrom cfg tree St.init with
  | .ok r => some (r.final.dirs, r.final.files, r.crawlErr)
  | .error _ => none

/-- The skip statistics of an immediate second run over the same tree:
(openings, skips for "already exported", skips for "extension skip list"). -/
def secondRunSkips (cfg : Cfg) (tree : List Entry) : Option (Nat × Nat × Nat) :=
  match beginRunFrom cfg tree St.init with
  | .error _ => none
  | .ok r1 =>
    match beginRunFrom cfg tree (carryFS r1.final) with
    | .error _ => none
    | .ok r2 => some (r2.final.log.countP Ev.isOpening,
        r2.final.log.countP Ev.isSkippedDone,
        r2.final.log.countP Ev.isSkippedExt)

/-!
# Lemmas

## The string and path helpers
-/

theorem isSubList_mem {pat l : List Char} {c : Char} (hc : c ∈ pat)
    (h : isSubList pat l = true) : c ∈ l := by
  induction l with
  | nil =>
    unfold isSubList at h
    simp at h
    subst h
    simp at hc
  | cons a rest ih =>
    unfold isSubList at h
    split at h
    · next hpre => exact (List.IsPrefix.subset (List.isPrefixOf_iff_prefix.mp hpre)) hc
    · simp at h
      exact List.mem_cons_of_mem a (ih h)

theorem afterLastDot?_none {s : String} (h : dotFree s = true) :
    afterLastDot? s = none := by
  unfold afterLastDot?
  rw [show s.data.contains '.' = false by simpa [dotFree] using h]
  simp

theorem afterLastDot?_isSome {s : String} (h : dotFree s = false) :
    ∃ t, afterLastDot? s = some t := by
  unfold afterLastDot?
  rw [show s.data.contains '.' = true by simpa [dotFree] using h]
  simp

theorem isCat_false_of_dotFree {s : String} (h : dotFree s = true) :
    isCat s = false := by
  unfold isCat
  rw [afterLastDot?_none h]
  rfl

theorem startsWithCAT_head_c {s : String} (h : s.data.head? = some 'c') :
    startsWithCAT s = false := by
  unfold startsWithCAT
  cases hd : s.data with
  | nil => simp [hd] at h
  | cons a l =>
    rw [hd] at h
    simp at h
    subst h
    rw [beq_eq_false_iff_ne]
    intro hcontra
    have h2 := congrArg List.head? hcontra
    simp at h2

theorem benignComp_cases {c : String} (h : benignComp c = true) :
    dotFree c = true ∨ c = ".catminer" := by
  unfold benignComp at h
  rcases Bool.or_eq_true_iff.mp h with h1 | h2
  · exact Or.inl h1
  · exact Or.inr (by simpa using h2)

theorem pcsAux_benign (l : List String) (h : ∀ c ∈ l, benignComp c = true) :
    pcsAux l = none ∨ ∃ t, pcsAux l = some t ∧ t.data.head? = some 'c' := by
  induction l with
  | nil => exact Or.inl rfl
  | cons c rest ih =>
    unfold pcsAux
    rcases benignComp_cases (h c (by simp)) with hdf | hcm
    · rw [afterLastDot?_none hdf]
      rcases ih (fun x hx => h x (by simp [hx])) with hnone | ⟨t, ht, hh⟩
      · rw [hnone]
        exact Or.inl rfl
      · rw [ht]
        right
        refine ⟨t ++ "/" ++ c, rfl, ?_⟩
        obtain ⟨ts, hts⟩ : ∃ ts, t.data = 'c' :: ts := by
          cases htd : t.data with
          | nil => rw [htd] at hh; simp at hh
          | cons a l2 =>
            rw [htd] at hh
            simp at hh
            exact ⟨l2, by rw [hh]⟩
        have : (t ++ "/" ++ c).data = 'c' :: (ts ++ "/".data ++ c.data) := by
          simp [String.data_append, hts]
        rw [this]
        rfl
    · subst hcm
      rw [show afterLastDot? ".catminer" = some "catminer" from by decide]
      exact Or.inr ⟨"catminer", rfl, by decide⟩

theorem benignPath_mem {p : Path} (h : benignPath p = true) {c : String}
    (hc : c ∈ p) : benignComp c = true := by
  unfold benignPath at h
  exact List.all_eq_true.mp h c hc

/-- Under a benign prefix, the path-level `type_re` test is the name-level
test of the last component. -/
theorem isCatPath_append {inP : Path} (n : String) (hb : benignPath inP = true) :
    isCatPath (inP ++ [n]) = isCat n := by
  by_cases hdf : dotFree n = true
  · rw [isCat_false_of_dotFree hdf]
    unfold isCatPath pathCatSuffix
    rw [show (inP ++ [n]).reverse = n :: inP.reverse by simp]
    unfold pcsAux
    rw [afterLastDot?_none hdf]
    rcases pcsAux_benign inP.reverse
        (fun c hc => benignPath_mem hb (List.mem_reverse.mp hc)) with hnone | ⟨t, ht, hh⟩
    · rw [hnone]
      rfl
    · rw [ht]
      simp only [Option.map_some]
      obtain ⟨ts, hts⟩ : ∃ ts, t.data = 'c' :: ts := by
        cases htd : t.data with
        | nil => rw [htd] at hh; simp at hh
        | cons a l2 =>
          rw [htd] at hh
          simp at hh
          exact ⟨l2, by rw [hh]⟩
      have hhd : (t ++ "/" ++ n).data.head? = some 'c' := by
        simp [String.data_append, hts]
      simp [startsWithCAT_head_c hhd]
  · have hsome := afterLastDot?_isSome (by simpa using hdf)
    obtain ⟨t, ht⟩ := hsome
    unfold isCatPath pathCatSuffix isCat
    rw [show (inP ++ [n]).reverse = n :: inP.reverse by simp]
    unfold pcsAux
    rw [ht]

/-- Under a benign prefix, the path-level suffix is the name-level suffix
when the name has a dot. -/
theorem pathCatSuffix_append {inP : Path} (n : String) (hdf : dotFree n = false) :
    pathCatSuffix (inP ++ [n]) = afterLastDot? n := by
  obtain ⟨t, ht⟩ := afterLastDot?_isSome hdf
  unfold pathCatSuffix
  rw [show (inP ++ [n]).reverse = n :: inP.reverse by simp]
  unfold pcsAux
  rw [ht]

theorem pathKind_append {inP : Path} (n : String) (hdf : dotFree n = false) :
    pathKind (inP ++ [n]) = kindOf n := by
  unfold pathKind kindOf
  rw [pathCatSuffix_append n hdf]

theorem isCat_dotFree_false {n : String} (h : isCat n = true) :
    dotFree n = false := by
  by_contra hdf
  rw [isCat_false_of_dotFree (by simpa using hdf)] at h
  exact Bool.false_ne_true h

theorem upToLastDot?_benign {c : String} (h : benignComp c = true) :
    upToLastDot? c = none := by
  rcases benignComp_cases h with hdf | hcm
  · unfold upToLastDot?
    have h1 : c.data.reverse.dropWhile (· ≠ '.') = [] := by
      rw [List.dropWhile_eq_nil_iff]
      intro x hx
      have hxc : x ∈ c.data := List.mem_reverse.mp hx
      simp only [ne_eq, decide_eq_true_eq]
      intro hdot
      subst hdot
      unfold dotFree at hdf
      simp at hdf
      exact hdf hxc
    rw [h1]
  · subst hcm
    decide

theorem fileReFirst_append {inP : Path} (rest : Path) (hb : benignPath inP = true) :
    fileReFirst (inP ++ rest) = fileReFirst rest := by
  unfold fileReFirst
  induction inP with
  | nil => rfl
  | cons c l ih =>
    rw [List.cons_append, List.findSome?_cons]
    rw [upToLastDot?_benign (benignPath_mem hb (by simp))]
    exact ih (by
      unfold benignPath at hb ⊢
      simp only [List.all_cons, Bool.and_eq_true] at hb
      exact hb.2)

theorem hasSub_benign {c : String} (h : benignComp c = true) :
    hasSub ".CATProcess" c = false := by
  rcases benignComp_cases h with hdf | hcm
  · by_contra hcontra
    have hsub : hasSub ".CATProcess" c = true := by
      revert hcontra
      cases hasSub ".CATProcess" c <;> simp
    have : '.' ∈ c.data := isSubList_mem (by decide) hsub
    unfold dotFree at hdf
    simp at hdf
    exact hdf this
  · subst hcm
    decide

theorem hasCATProcess_append {inP : Path} (n : String) (hb : benignPath inP = true) :
    hasCATProcess (inP ++ [n]) = hasSub ".CATProcess" n := by
  unfold hasCATProcess
  rw [List.any_append]
  have h1 : inP.any (fun c => hasSub ".CATProcess" c) = false := by
    rw [List.any_eq_false]
    intro c hc
    simp [hasSub_benign (benignPath_mem hb hc)]
  rw [h1]
  simp

theorem benignPath_append {p : Path} {n : String} (hb : benignPath p = true)
    (hn : benignComp n = true) : benignPath (p ++ [n]) = true := by
  unfold benignPath at hb ⊢
  rw [List.all_append]
  simp [hb, hn]

theorem cleanPath_benign {p : Path} (h : cleanPath p = true) :
    benignPath p = true := by
  unfold cleanPath at h
  unfold benignPath
  rw [List.all_eq_true] at h ⊢
  intro c hc
  unfold benignComp
  simp [h c hc]

theorem cleanPath_append {p : Path} {n : String} (hb : cleanPath p = true)
    (hn : dotFree n = true) : cleanPath (p ++ [n]) = true := by
  unfold cleanPath at hb ⊢
  rw [List.all_append]
  simp [hb, hn]

/-- Decomposition of a name at its last dot. -/
theorem name_decomp {n b t : String} (hb : upToLastDot? n = some b)
    (ht : afterLastDot? n = some t) :
    n.data = b.data ++ '.' :: t.data := by
  unfold upToLastDot? at hb
  unfold afterLastDot? at ht
  by_cases hcont : n.data.contains '.' = true
  · rw [hcont] at ht
    simp only [if_true] at ht
    injection ht with ht
    cases hdw : n.data.reverse.dropWhile (· ≠ '.') with
    | nil => rw [hdw] at hb; exact absurd hb (by simp)
    | cons d rest =>
      rw [hdw] at hb
      have hb1 : (if rest.isEmpty then none else some (⟨rest.reverse⟩ : String))
          = some b := hb
      by_cases hre : rest.isEmpty
      · rw [if_pos hre] at hb1
        exact absurd hb1 (by simp)
      · rw [if_neg hre] at hb1
        injection hb1 with hb1
        have hfind : n.data.reverse.find? (fun x => !(x ≠ '.')) = some d := by
          rw [List.find?_not_eq_head?_dropWhile, hdw]
          rfl
        have hd : d = '.' := by simpa using List.find?_some hfind
        have hsplit : n.data.reverse = t.data.reverse ++ '.' :: b.data.reverse := by
          have h1 := List.takeWhile_append_dropWhile
            (p := fun x => decide (x ≠ '.')) (l := n.data.reverse)
          rw [hdw, hd] at h1
          rw [← h1]
          congr 1
          · rw [← ht]
            simp
          · rw [← hb1]
            simp
        have h2 : n.data = (t.data.reverse ++ '.' :: b.data.reverse).reverse := by
          rw [← hsplit, List.reverse_reverse]
        rw [h2]
        simp
  · rw [show n.data.contains '.' = false by simpa using hcont] at ht
    exact absurd ht (by simp)

/-- Reconstruction: `file_re` stem + `".CAT"` + `type_re` kind gives back the
document's name. -/
theorem fullName_eq {n b : String} (hcat : isCat n = true)
    (hb : upToLastDot? n = some b) :
    b ++ ".CAT" ++ kindOf n = n := by
  obtain ⟨t, ht⟩ := afterLastDot?_isSome (isCat_dotFree_false hcat)
  have hdec := name_decomp hb ht
  have hcat3 : t.data.take 3 = "CAT".data := by
    unfold isCat at hcat
    rw [ht] at hcat
    simp only [Option.map_some', Option.getD_some] at hcat
    unfold startsWithCAT at hcat
    exact eq_of_beq hcat
  have htd : t.data = 'C' :: 'A' :: 'T' :: t.data.drop 3 := by
    conv_lhs => rw [← List.take_append_drop 3 t.data]
    rw [hcat3]
    rfl
  apply String.ext
  rw [String.data_append, String.data_append, hdec]
  unfold kindOf
  rw [ht]
  simp only [Option.getD_some]
  conv_rhs => rw [htd]
  simp

theorem extension_dict_extExport {ft : Nat} (h : ft = 0 ∨ ft = 1) :
    extension_dict ft = some (extExport ft) := by
  rcases h with h | h <;> subst h <;> rfl

theorem extExport_dot (ft : Nat) : '.' ∈ (extExport ft).data := by
  unfold extExport
  split <;> decide

theorem artifact_dotFree (x : String) (ft : Nat) :
    dotFree (x ++ extExport ft) = false := by
  unfold dotFree
  have h1 : '.' ∈ (x ++ extExport ft).data := by
    rw [String.data_append]
    exact List.mem_append_right _ (extExport_dot ft)
  have h2 : (x ++ extExport ft).data.contains '.' = true := by simpa using h1
  rw [h2]
  rfl

theorem artifact_ne_catminer (x : String) (ft : Nat) :
    x ++ extExport ft ≠ ".catminer" := by
  unfold extExport
  split <;>
  · intro h
    have h2 := congrArg (fun s => s.data.reverse.head?) h
    simp [String.data_append] at h2

theorem benignComp_false_of_artifact (x : String) (ft : Nat) :
    benignComp (x ++ extExport ft) = false := by
  unfold benignComp
  rw [artifact_dotFree]
  simp
  exact artifact_ne_catminer x ft

theorem clean_head_ne {p : Path} (h : cleanPath p = true) :
    p.head? ≠ some ".catminer" := by
  cases p with
  | nil => simp
  | cons c r =>
    simp only [List.head?_cons, ne_eq, Option.some.injEq]
    intro hc
    subst hc
    unfold cleanPath at h
    have h2 := List.all_eq_true.mp h ".catminer" (by simp)
    exact absurd h2 (by decide)

theorem dotFree_ne_catminer {c : String} (h : dotFree c = true) :
    c ≠ ".catminer" := by
  intro hc
  subst hc
  exact absurd h (by decide)

/-- A nonempty prefix of `".catminer" :: r` starts with `".catminer"`. -/
theorem prefix_catminer_head {q : Path} {r : Path}
    (h : q.isPrefixOf (".catminer" :: r) = true) (hq : q ≠ []) :
    q.head? = some ".catminer" := by
  cases q with
  | nil => exact absurd rfl hq
  | cons c q2 =>
    obtain ⟨rest, hrest⟩ := List.isPrefixOf_iff_prefix.mp h
    have h2 := congrArg List.head? hrest
    simp at h2
    simp [h2]

theorem isPrefixOf_head {q p : Path} (h : q.isPrefixOf p = true) (hq : q ≠ []) :
    q.head? = p.head? := by
  obtain ⟨rest, hrest⟩ := List.isPrefixOf_iff_prefix.mp h
  cases q with
  | nil => exact absurd rfl hq
  | cons c q2 => rw [← hrest]; rfl

theorem isPrefixOf_concat {q l : Path} {a : String}
    (h : q.isPrefixOf (l ++ [a]) = true) :
    q.isPrefixOf l = true ∨ q = l ++ [a] := by
  rcases List.prefix_concat_iff.mp (List.isPrefixOf_iff_prefix.mp h) with h1 | h1
  · exact Or.inr h1
  · exact Or.inl (List.isPrefixOf_iff_prefix.mpr h1)

theorem isPrefixOf_trans {a b c : Path} (h1 : a.isPrefixOf b = true)
    (h2 : b.isPrefixOf c = true) : a.isPrefixOf c = true :=
  List.isPrefixOf_iff_prefix.mpr
    ((List.isPrefixOf_iff_prefix.mp h1).trans (List.isPrefixOf_iff_prefix.mp h2))

/-! ## Filesystem-operation lemmas -/

theorem existsP_cases {s : St} {p : Path} (h : existsP s p = true) :
    p = [] ∨ p ∈ s.dirs ∨ p ∈ s.files := by
  unfold existsP at h
  rcases Bool.or_eq_true_iff.mp h with h1 | h1
  · rcases Bool.or_eq_true_iff.mp h1 with h2 | h2
    · exact Or.inl (by simpa using h2)
    · exact Or.inr (Or.inl (by simpa using h2))
  · exact Or.inr (Or.inr (by simpa using h1))

theorem existsP_of_dir {s : St} {p : Path} (h : p ∈ s.dirs) :
    existsP s p = true := by
  unfold existsP
  simp [h]

theorem existsP_of_file {s : St} {p : Path} (h : p ∈ s.files) :
    existsP s p = true := by
  unfold existsP
  simp [h]

/-- A path ending in a dot-free component is never a file path of a
well-formed state. -/
theorem not_file_of_dotFree {s : St} (hf : filesOk s) {q0 : Path} {c : String}
    (hc : dotFree c = true) : (q0 ++ [c]) ∉ s.files := by
  intro hmem
  obtain ⟨⟨q2, c2, hq2, hdf2, _⟩, _⟩ := hf _ hmem
  have h1 : some c = some c2 := by
    rw [← List.getLast?_concat q0, hq2, List.getLast?_concat]
  injection h1 with h1
  subst h1
  rw [hc] at hdf2
  exact absurd hdf2 (by simp)

theorem mkdirIfAbsent_files (s : St) (p : Path) :
    (mkdirIfAbsent s p).files = s.files := by
  unfold mkdirIfAbsent
  split <;> rfl

theorem mkdirIfAbsent_adv (s : St) (p : Path) :
    (mkdirIfAbsent s p).adv = s.adv := by
  unfold mkdirIfAbsent
  split <;> rfl

theorem mkdirIfAbsent_countP (s : St) (p : Path) (f : Ev → Bool)
    (hf : ∀ q, f (.created q) = false) :
    (mkdirIfAbsent s p).log.countP f = s.log.countP f := by
  unfold mkdirIfAbsent
  split
  · rfl
  · simp [List.countP_cons, hf]

theorem mkdirIfAbsent_dirs_iff {s : St} (hf : filesOk s) {q0 : Path}
    {c : String} (hc : dotFree c = true) (p : Path) :
    p ∈ (mkdirIfAbsent s (q0 ++ [c])).dirs ↔ p = q0 ++ [c] ∨ p ∈ s.dirs := by
  unfold mkdirIfAbsent
  split
  · next hex =>
    have hind : (q0 ++ [c]) ∈ s.dirs := by
      rcases existsP_cases hex with h1 | h1 | h1
      · exact absurd h1 (by simp)
      · exact h1
      · exact absurd h1 (not_file_of_dotFree hf hc)
    constructor
    · exact Or.inr
    · rintro (h | h)
      · rw [h]; exact hind
      · exact h
  · simp [List.mem_cons]

theorem mkdirIfAbsent_mem_self {s : St} (hf : filesOk s) {q0 : Path}
    {c : String} (hc : dotFree c = true) :
    (q0 ++ [c]) ∈ (mkdirIfAbsent s (q0 ++ [c])).dirs :=
  (mkdirIfAbsent_dirs_iff hf hc _).mpr (Or.inl rfl)

theorem stOk_mkdir {s : St} (hs : stOk s) {q0 : Path} {c : String}
    (hq0 : cleanPath q0 = true) (hc : dotFree c = true)
    (hin : q0 = [] ∨ q0 ∈ s.dirs) :
    stOk (mkdirIfAbsent s (q0 ++ [c])) := by
  obtain ⟨hd, hf, hcl⟩ := hs
  unfold mkdirIfAbsent
  split
  · exact ⟨hd, hf, hcl⟩
  · refine ⟨?_, hf, ?_⟩
    · intro p hp
      rcases List.mem_cons.mp hp with h | h
      · subst h
        refine ⟨by simp, ?_⟩
        intro x hx
        rcases List.mem_append.mp hx with h1 | h1
        · have h2 := List.all_eq_true.mp hq0 x h1
          unfold benignComp
          simp [h2]
        · simp at h1
          subst h1
          unfold benignComp
          simp [hc]
      · exact hd p h
    · intro p hp q hq hqne
      rcases List.mem_cons.mp hp with h | h
      · subst h
        rcases isPrefixOf_concat hq with h1 | h1
        · rcases hin with h0 | h0
          · subst h0
            have : q = [] := by
              simpa using List.isPrefixOf_iff_prefix.mp h1
            exact absurd this hqne
          · exact List.mem_cons_of_mem _ (hcl q0 h0 q h1 hqne)
        · subst h1
          exact List.mem_cons_self _ _
      · exact List.mem_cons_of_mem _ (hcl p h q hq hqne)

theorem nonNilInits_mem {q p : Path} :
    p ∈ nonNilInits q ↔ p.isPrefixOf q = true ∧ p ≠ [] := by
  unfold nonNilInits
  rw [List.mem_filter, List.mem_inits]
  constructor
  · rintro ⟨h1, h2⟩
    exact ⟨List.isPrefixOf_iff_prefix.mpr h1, by simpa using h2⟩
  · rintro ⟨h1, h2⟩
    exact ⟨List.isPrefixOf_iff_prefix.mp h1, by simpa using h2⟩

theorem makedirs_files (s : St) (p : Path) :
    (makedirs s p).files = s.files := by
  unfold makedirs
  split <;> rfl

theorem makedirs_adv (s : St) (p : Path) : (makedirs s p).adv = s.adv := by
  unfold makedirs
  split <;> rfl

theorem makedirs_countP (s : St) (p : Path) (f : Ev → Bool)
    (hf : ∀ q, f (.created q) = false) :
    (makedirs s p).log.countP f = s.log.countP f := by
  unfold makedirs
  split
  · rfl
  · simp [List.countP_cons, hf]

theorem makedirs_dirs_mono {s : St} {q : Path} {p : Path} (h : p ∈ s.dirs) :
    p ∈ (makedirs s q).dirs := by
  unfold makedirs
  split
  · exact h
  · simp [h]

theorem makedirs_dirs_iff {s : St} (hf : filesOk s) (hcl : prefixClosed s)
    {q0 : Path} {c : String} (hc : dotFree c = true) (p : Path) :
    p ∈ (makedirs s (q0 ++ [c])).dirs
      ↔ p ∈ nonNilInits (q0 ++ [c]) ∨ p ∈ s.dirs := by
  unfold makedirs
  split
  · next hex =>
    have hind : (q0 ++ [c]) ∈ s.dirs := by
      rcases existsP_cases hex with h1 | h1 | h1
      · exact absurd h1 (by simp)
      · exact h1
      · exact absurd h1 (not_file_of_dotFree hf hc)
    constructor
    · exact Or.inr
    · rintro (h | h)
      · rw [nonNilInits_mem] at h
        exact hcl _ hind p h.1 h.2
      · exact h
  · simp [List.mem_append]

theorem stOk_makedirs {s : St} (hs : stOk s) {q : Path}
    (hq : ∀ x ∈ q, benignComp x = true) :
    stOk (makedirs s q) := by
  obtain ⟨hd, hf, hcl⟩ := hs
  unfold makedirs
  split
  · exact ⟨hd, hf, hcl⟩
  · refine ⟨?_, hf, ?_⟩
    · intro p hp
      rcases List.mem_append.mp hp with h | h
      · rw [nonNilInits_mem] at h
        refine ⟨h.2, ?_⟩
        intro x hx
        exact hq x (List.IsPrefix.subset (List.isPrefixOf_iff_prefix.mp h.1) hx)
      · exact hd p h
    · intro p hp q2 hq2 hq2ne
      rcases List.mem_append.mp hp with h | h
      · rw [nonNilInits_mem] at h
        refine List.mem_append.mpr (Or.inl ?_)
        rw [nonNilInits_mem]
        exact ⟨isPrefixOf_trans hq2 h.1, hq2ne⟩
      · exact List.mem_append.mpr (Or.inr (hcl p h q2 hq2 hq2ne))

theorem rmtree_dirs_mem {s : St} {t p : Path} :
    p ∈ (rmtree s t).dirs ↔ p ∈ s.dirs ∧ ¬(t.isPrefixOf p = true) := by
  unfold rmtree
  simp only [List.mem_filter, Bool.not_eq_true', Bool.not_eq_true]

theorem rmtree_files_mem {s : St} {t p : Path} :
    p ∈ (rmtree s t).files ↔ p ∈ s.files ∧ ¬(t.isPrefixOf p = true) := by
  unfold rmtree
  simp only [List.mem_filter, Bool.not_eq_true', Bool.not_eq_true]

theorem stOk_rmtree {s : St} (hs : stOk s) (t : Path) : stOk (rmtree s t) := by
  obtain ⟨hd, hf, hcl⟩ := hs
  refine ⟨?_, ?_, ?_⟩
  · intro p hp
    exact hd p (rmtree_dirs_mem.mp hp).1
  · intro p hp
    exact hf p (rmtree_files_mem.mp hp).1
  · intro p hp q hq hqne
    obtain ⟨hp1, hp2⟩ := rmtree_dirs_mem.mp hp
    refine rmtree_dirs_mem.mpr ⟨hcl p hp1 q hq hqne, ?_⟩
    intro ht
    exact hp2 (isPrefixOf_trans ht hq)

/-! ## Well-formedness projections -/

theorem tidyL_cons {e : Entry} {es : List Entry} (h : tidyL (e :: es) = true) :
    tidyE e = true ∧ tidyL es = true :=
  Bool.and_eq_true_iff.mp h

theorem tidyE_dir {n : String} {cs : List Entry}
    (h : tidyE (.dir n cs) = true) :
    dotFree n = true ∧ tidyL cs = true :=
  Bool.and_eq_true_iff.mp h

theorem tidyE_raw {n : String} (h : tidyE (.raw n) = true) (hcat : isCat n = true) :
    ∃ b, upToLastDot? n = some b := by
  have h1 : (!isCat n || (upToLastDot? n).isSome) = true := h
  rcases Bool.or_eq_true_iff.mp h1 with h2 | h2
  · rw [hcat] at h2
    exact absurd h2 (by simp)
  · exact Option.isSome_iff_exists.mp h2

theorem tidyE_zip_proc {n : String} {ms : List Entry}
    (h : tidyE (.zip n ms) = true) (hp : hasSub ".CATProcess" n = true) :
    isCat n = true ∧ ∃ b, upToLastDot? n = some b := by
  have h1 : (if hasSub ".CATProcess" n then isCat n && (upToLastDot? n).isSome
      else !isCat n &&
        (match upToLastDot? n with
         | some b => dotFree b
         | none => false) && tidyL ms) = true := h
  rw [if_pos hp] at h1
  obtain ⟨h2, h3⟩ := Bool.and_eq_true_iff.mp h1
  exact ⟨h2, Option.isSome_iff_exists.mp h3⟩

theorem tidyE_zip_arch {n : String} {ms : List Entry}
    (h : tidyE (.zip n ms) = true) (hp : hasSub ".CATProcess" n = false) :
    isCat n = false ∧ (∃ b, upToLastDot? n = some b ∧ dotFree b = true) ∧
      tidyL ms = true := by
  have h1 : (if hasSub ".CATProcess" n then isCat n && (upToLastDot? n).isSome
      else !isCat n &&
        (match upToLastDot? n with
         | some b => dotFree b
         | none => false) && tidyL ms) = true := h
  rw [if_neg (by simp [hp])] at h1
  obtain ⟨h2, h3⟩ := Bool.and_eq_true_iff.mp h1
  obtain ⟨h4, h5⟩ := Bool.and_eq_true_iff.mp h2
  refine ⟨by simpa using h4, ?_, h3⟩
  cases hu : upToLastDot? n with
  | none => rw [hu] at h5; exact absurd h5 (by simp)
  | some b => exact ⟨b, rfl, by rw [hu] at h5; exact h5⟩

theorem tidyE_unreadable {n : String} (h : tidyE (.unreadable n) = true) :
    False := by
  have h1 : false = true := h
  exact absurd h1 (by simp)

/-! ## Size arithmetic for strong induction over the nested tree -/

theorem sizeOf_cons_dir {n : String} {cs es : List Entry} {N : Nat}
    (h : sizeOf (Entry.dir n cs :: es) ≤ N + 1) :
    sizeOf cs ≤ N ∧ sizeOf es ≤ N := by
  simp only [List.cons.sizeOf_spec, Entry.dir.sizeOf_spec] at h
  constructor <;> omega

theorem sizeOf_cons_zip {n : String} {ms es : List Entry} {N : Nat}
    (h : sizeOf (Entry.zip n ms :: es) ≤ N + 1) :
    sizeOf ms ≤ N ∧ sizeOf es ≤ N := by
  simp only [List.cons.sizeOf_spec, Entry.zip.sizeOf_spec] at h
  constructor <;> omega

theorem sizeOf_cons_tail {e : Entry} {es : List Entry} {N : Nat}
    (h : sizeOf (e :: es) ≤ N + 1) : sizeOf es ≤ N := by
  simp only [List.cons.sizeOf_spec] at h
  have h2 : 0 < sizeOf e := by cases e <;> simp_arith
  omega

theorem sizeOf_cons_zero {e : Entry} {es : List Entry}
    (h : sizeOf (e :: es) ≤ 0) : False := by
  simp only [List.cons.sizeOf_spec] at h
  omega

/-! ## Consequences of well-formedness -/

/-- A well-formed archive extracts without error. -/
theorem tidy_extractOk : ∀ (N : Nat) (es : List Entry), sizeOf es ≤ N →
    tidyL es = true → extractOkL es = true := by
  intro N
  induction N with
  | zero =>
    intro es hsz _
    cases es with
    | nil => rfl
    | cons e es => exact absurd hsz (by intro h; exact sizeOf_cons_zero h)
  | succ N ih =>
    intro es hsz ht
    cases es with
    | nil => rfl
    | cons e es =>
      obtain ⟨h1, h2⟩ := tidyL_cons ht
      have htl : extractOkL es = true := ih es (sizeOf_cons_tail hsz) h2
      have hhd : extractOkE e = true := by
        cases e with
        | dir nm cs =>
          obtain ⟨_, hcs⟩ := tidyE_dir h1
          exact ih cs (sizeOf_cons_dir hsz).1 hcs
        | raw nm => rfl
        | zip nm ms => rfl
        | unreadable nm => exact absurd h1 (by simp [tidyE])
      show (extractOkE e && extractOkL es) = true
      simp [hhd, htl]

/-- Mirror directories are nonempty clean paths; artifacts are a clean path
plus one dotted, non-`".catminer"` final component. -/
theorem shapes : ∀ (N : Nat) (es : List Entry) (cfg : Cfg) (outP : Path),
    sizeOf es ≤ N → tidyL es = true → cleanPath outP = true →
    (∀ m ∈ mirrorsL outP es, m ≠ [] ∧ cleanPath m = true) ∧
    (∀ a ∈ artifactsL cfg outP es,
      ∃ q c, a = q ++ [c] ∧ cleanPath q = true ∧ dotFree c = false ∧
        c ≠ ".catminer") := by
  intro N
  induction N with
  | zero =>
    intro es cfg outP hsz _ _
    cases es with
    | nil => exact ⟨by intro m hm; exact absurd hm (by simp [mirrorsL]),
        by intro a ha; exact absurd ha (by simp [artifactsL])⟩
    | cons e es => exact absurd hsz (by intro h; exact sizeOf_cons_zero h)
  | succ N ih =>
    intro es cfg outP hsz ht hout
    cases es with
    | nil => exact ⟨by intro m hm; exact absurd hm (by simp [mirrorsL]),
        by intro a ha; exact absurd ha (by simp [artifactsL])⟩
    | cons e es =>
      obtain ⟨h1, h2⟩ := tidyL_cons ht
      obtain ⟨ihm2, iha2⟩ := ih es cfg outP (sizeOf_cons_tail hsz) h2 hout
      have hhd : (∀ m ∈ mirrorsE outP e, m ≠ [] ∧ cleanPath m = true) ∧
          (∀ a ∈ artifactsE cfg outP e,
            ∃ q c, a = q ++ [c] ∧ cleanPath q = true ∧ dotFree c = false ∧
              c ≠ ".catminer") := by
        cases e with
        | dir nm cs =>
          obtain ⟨hdf, hcs⟩ := tidyE_dir h1
          have hout2 : cleanPath (outP ++ [nm]) = true := cleanPath_append hout hdf
          obtain ⟨ihm, iha⟩ := ih cs cfg (outP ++ [nm]) (sizeOf_cons_dir hsz).1 hcs hout2
          constructor
          · intro m hm
            have hm2 : m = outP ++ [nm] ∨ m ∈ mirrorsL (outP ++ [nm]) cs := by
              simpa [mirrorsE] using hm
            rcases hm2 with h | h
            · exact ⟨by simp [h], by rw [h]; exact hout2⟩
            · exact ihm m h
          · intro a ha
            exact iha a (by simpa [artifactsE] using ha)
        | raw nm =>
          constructor
          · intro m hm
            exact absurd hm (by simp [mirrorsE])
          · intro a ha
            have ha0 : a ∈ (if exportedDoc cfg nm then
                [outP ++ [nm ++ extExport cfg.file_type]] else ([] : List Path)) := ha
            by_cases hx : exportedDoc cfg nm = true
            · rw [hx] at ha0
              simp at ha0
              exact ⟨outP, nm ++ extExport cfg.file_type, ha0, hout,
                artifact_dotFree nm cfg.file_type, artifact_ne_catminer nm cfg.file_type⟩
            · rw [show exportedDoc cfg nm = false by simpa using hx] at ha0
              simp at ha0
        | zip nm ms =>
          by_cases hp : hasSub ".CATProcess" nm = true
          · constructor
            · intro m hm
              have : mirrorsE outP (Entry.zip nm ms) = [] := by
                simp [mirrorsE, hp]
              rw [this] at hm
              exact absurd hm (by simp)
            · intro a ha
              have ha1 : a ∈ (if hasSub ".CATProcess" nm then
                  (if exportedDoc cfg nm then
                    [outP ++ [nm ++ extExport cfg.file_type]] else [])
                  else (match upToLastDot? nm with
                    | some b => artifactsL cfg (outP ++ [b]) ms
                    | none => ([] : List Path))) := ha
              rw [hp] at ha1
              simp only [if_true] at ha1
              by_cases hx : exportedDoc cfg nm = true
              · rw [hx] at ha1
                simp at ha1
                exact ⟨outP, nm ++ extExport cfg.file_type, ha1, hout,
                  artifact_dotFree nm cfg.file_type, artifact_ne_catminer nm cfg.file_type⟩
              · rw [show exportedDoc cfg nm = false by simpa using hx] at ha1
                simp at ha1
          · have hp2 : hasSub ".CATProcess" nm = false := by simpa using hp
            obtain ⟨hnc, ⟨b, hb, hbdf⟩, hms⟩ := tidyE_zip_arch h1 hp2
            have hout2 : cleanPath (outP ++ [b]) = true := cleanPath_append hout hbdf
            obtain ⟨ihm, iha⟩ := ih ms cfg (outP ++ [b]) (sizeOf_cons_zip hsz).1 hms hout2
            constructor
            · intro m hm
              have hm2 : m = outP ++ [b] ∨ m ∈ mirrorsL (outP ++ [b]) ms := by
                simpa [mirrorsE, hp2, hb] using hm
              rcases hm2 with h | h
              · exact ⟨by simp [h], by rw [h]; exact hout2⟩
              · exact ihm m h
            · intro a ha
              exact iha a (by simpa [artifactsE, hp2, hb] using ha)
        | unreadable nm => exact absurd h1 (by simp [tidyE])
      constructor
      · intro m hm
        rcases List.mem_append.mp (by simpa [mirrorsL] using hm) with h | h
        · exact hhd.1 m h
        · exact ihm2 m h
      · intro a ha
        rcases List.mem_append.mp (by simpa [artifactsL] using ha) with h | h
        · exact hhd.2 a h
        · exact iha2 a h

theorem artifacts_head_ne {cfg : Cfg} {outP : Path} {es : List Entry}
    (ht : tidyL es = true) (hout : cleanPath outP = true) :
    ∀ a ∈ artifactsL cfg outP es, a.head? ≠ some ".catminer" := by
  intro a ha
  obtain ⟨q, c, hqc, hq, hdf, hne⟩ :=
    (shapes (sizeOf es) es cfg outP le_rfl ht hout).2 a ha
  subst hqc
  cases q with
  | nil => simpa using hne
  | cons x q2 =>
    have hx : dotFree x = true := List.all_eq_true.mp hq x (by simp)
    simpa using dotFree_ne_catminer hx

theorem mirrors_shape {outP : Path} {es : List Entry}
    (ht : tidyL es = true) (hout : cleanPath outP = true) :
    ∀ m ∈ mirrorsL outP es, m ≠ [] ∧ cleanPath m = true := by
  intro m hm
  exact (shapes (sizeOf es) es {} outP le_rfl ht hout).1 m hm

/-- On a well-formed tree, `cat_count` returns `countL` (and in particular
succeeds): the catalog count — which descends into nested archives by member
name without extraction — matches the crawl's document count. -/
theorem cat_count_tidy : ∀ (N : Nat),
    (∀ es : List Entry, sizeOf es ≤ N → tidyL es = true →
      cat_countL es = .ok (countL es)) ∧
    (∀ (pre : Path) (ms : List Entry), sizeOf ms ≤ N → tidyL ms = true →
      cleanPath pre = true → process_zipL pre ms = .ok (countL ms)) := by
  intro N
  induction N with
  | zero =>
    constructor
    · intro es hsz _
      cases es with
      | nil => rfl
      | cons e es => exact absurd hsz (by intro h; exact sizeOf_cons_zero h)
    · intro pre ms hsz _ _
      cases ms with
      | nil => rfl
      | cons e es => exact absurd hsz (by intro h; exact sizeOf_cons_zero h)
  | succ N ih =>
    obtain ⟨ihc, ihz⟩ := ih
    constructor
    · intro es hsz ht
      cases es with
      | nil => rfl
      | cons e es =>
        obtain ⟨h1, h2⟩ := tidyL_cons ht
        have htl : cat_countL es = .ok (countL es) :=
          ihc es (sizeOf_cons_tail hsz) h2
        have hhd : cat_countE e = .ok (countE e) := by
          cases e with
          | dir nm cs =>
            obtain ⟨_, hcs⟩ := tidyE_dir h1
            exact ihc cs (sizeOf_cons_dir hsz).1 hcs
          | raw nm => rfl
          | zip nm ms =>
            by_cases hp : hasSub ".CATProcess" nm = true
            · obtain ⟨hcat, _⟩ := tidyE_zip_proc h1 hp
              show (if isCat nm then Except.ok 1 else process_zipL [] ms)
                  = .ok (countE (Entry.zip nm ms))
              rw [if_pos hcat]
              show Except.ok 1 = .ok (if isCat nm then 1 else countL ms)
              rw [if_pos hcat]
            · have hp2 : hasSub ".CATProcess" nm = false :=
                by simpa using hp
              obtain ⟨hnc, _, hms⟩ := tidyE_zip_arch h1 hp2
              show (if isCat nm then Except.ok 1 else process_zipL [] ms)
                  = .ok (countE (Entry.zip nm ms))
              rw [if_neg (by simp [hnc])]
              have := ihz [] ms (sizeOf_cons_zip hsz).1 hms rfl
              rw [this]
              show Except.ok (countL ms) = .ok (if isCat nm then 1 else countL ms)
              rw [if_neg (by simp [hnc])]
          | unreadable nm => exact absurd h1 (by simp [tidyE])
        show (do
          let a ← cat_countE e
          let b ← cat_countL es
          return a + b) = Except.ok (countE e + countL es)
        rw [hhd, htl]
        rfl
    · intro pre ms hsz ht hpre
      cases ms with
      | nil => rfl
      | cons e es =>
        obtain ⟨h1, h2⟩ := tidyL_cons ht
        have htl : process_zipL pre es = .ok (countL es) :=
          ihz pre es (sizeOf_cons_tail hsz) h2 hpre
        have hhd : process_zipE pre e = .ok (countE e) := by
          cases e with
          | dir nm cs =>
            obtain ⟨hdf, hcs⟩ := tidyE_dir h1
            exact ihz (pre ++ [nm]) cs (sizeOf_cons_dir hsz).1 hcs
              (cleanPath_append hpre hdf)
          | raw nm =>
            show Except.ok (if isCatPath (pre ++ [nm]) then 1 else 0)
                = .ok (if isCat nm then 1 else 0)
            rw [isCatPath_append nm (cleanPath_benign hpre)]
          | zip nm ms2 =>
            by_cases hp : hasSub ".CATProcess" nm = true
            · obtain ⟨hcat, _⟩ := tidyE_zip_proc h1 hp
              show (if isCatPath (pre ++ [nm]) then Except.ok 1
                  else process_zipL [] ms2) = .ok (countE (Entry.zip nm ms2))
              rw [isCatPath_append nm (cleanPath_benign hpre), if_pos hcat]
              show Except.ok 1 = .ok (if isCat nm then 1 else countL ms2)
              rw [if_pos hcat]
            · have hp2 : hasSub ".CATProcess" nm = false :=
                by simpa using hp
              obtain ⟨hnc, _, hms⟩ := tidyE_zip_arch h1 hp2
              show (if isCatPath (pre ++ [nm]) then Except.ok 1
                  else process_zipL [] ms2) = .ok (countE (Entry.zip nm ms2))
              rw [isCatPath_append nm (cleanPath_benign hpre), if_neg (by simp [hnc])]
              rw [ihz [] ms2 (sizeOf_cons_zip hsz).1 hms rfl]
              show Except.ok (countL ms2) = .ok (if isCat nm then 1 else countL ms2)
              rw [if_neg (by simp [hnc])]
          | unreadable nm => exact absurd h1 (by simp [tidyE])
        show (do
          let a ← process_zipE pre e
          let b ← process_zipL pre es
          return a + b) = Except.ok (countE e + countL es)
        rw [hhd, htl]
        rfl

/-! ## The document arm -/

theorem fileReFirst_single (n : String) : fileReFirst [n] = upToLastDot? n := by
  unfold fileReFirst
  rw [List.findSome?_cons]
  cases upToLastDot? n <;> simp

theorem artifact_path_head {outP : Path} (hout : cleanPath outP = true)
    (x : String) (ft : Nat) :
    (outP ++ [x ++ extExport ft]).head? ≠ some ".catminer" := by
  cases outP with
  | nil => simpa using artifact_ne_catminer x ft
  | cons c r =>
    have h1 := clean_head_ne hout
    simpa using h1

theorem stOk_bump {s : St} (hs : stOk s) (L : List Ev) (fn adv : Nat) :
    stOk { s with log := L, fileNum := fn, adv := adv } := hs

theorem stOk_addFile {s : St} (hs : stOk s) {outP : Path}
    (hout : cleanPath outP = true) (x : String) (ft : Nat) (L : List Ev)
    (fn adv : Nat) :
    stOk { s with files := (outP ++ [x ++ extExport ft]) :: s.files,
                  log := L, fileNum := fn, adv := adv } := by
  obtain ⟨hd, hf, hcl⟩ := hs
  refine ⟨hd, ?_, hcl⟩
  intro p hp
  rcases List.mem_cons.mp hp with h | h
  · subst h
    exact ⟨⟨outP, x ++ extExport ft, rfl, artifact_dotFree x ft,
      artifact_ne_catminer x ft⟩, artifact_path_head hout x ft⟩
  · exact hf p h

theorem stOk_savedSt {cfg : Cfg} {s : St} (hs : stOk s) {outP : Path}
    (hout : cleanPath outP = true) (x : String) :
    stOk (savedSt cfg x outP s) := by
  obtain ⟨hd, hf, hcl⟩ := hs
  refine ⟨hd, ?_, hcl⟩
  intro p hp
  rcases List.mem_cons.mp hp with h | h
  · subst h
    exact ⟨⟨outP, x ++ extExport cfg.file_type, rfl,
      artifact_dotFree x cfg.file_type, artifact_ne_catminer x cfg.file_type⟩,
      artifact_path_head hout x cfg.file_type⟩
  · exact hf p h

theorem export_file_eq {cfg : Cfg} {n b : String} {inP outP : Path} {s : St}
    (hcat : isCat n = true) (hb : upToLastDot? n = some b)
    (hbi : benignPath inP = true) (horc : ∀ p, cfg.orc p = none) :
    export_file cfg (inP ++ [n]) outP s = (savedSt cfg n outP s, none) := by
  have hfr : fileReFirst (inP ++ [n]) = some b := by
    rw [fileReFirst_append [n] hbi, fileReFirst_single]
    exact hb
  have hkind : pathKind (inP ++ [n]) = kindOf n :=
    pathKind_append n (isCat_dotFree_false hcat)
  have hfull : b ++ ".CAT" ++ kindOf n = n := fullName_eq hcat hb
  unfold export_file
  rw [hfr]
  show (match cfg.orc (inP ++ [n]) with
    | some e => (openSt cfg (b ++ ".CAT" ++ pathKind (inP ++ [n])) s, some e)
    | none => (savedSt cfg (b ++ ".CAT" ++ pathKind (inP ++ [n])) outP s,
        none)) = (savedSt cfg n outP s, none)
  rw [horc (inP ++ [n]), hkind, hfull]

/-- Behaviour of the document arm of the crawl on a well-formed document:
it never raises, advances the progress bar once, leaves the directory set
unchanged, and ends with exactly the expected artifact present; when the
artifact already exists and force-export is off, it opens nothing and logs a
single skip with the appropriate reason. -/
theorem docStep_spec {cfg : Cfg} {n b : String} {inP outP : Path} {s : St}
    (hcat : isCat n = true) (hb : upToLastDot? n = some b)
    (hbi : benignPath inP = true) (hout : cleanPath outP = true)
    (hs : stOk s) (houtd : outP = [] ∨ outP ∈ s.dirs)
    (hft : cfg.file_type = 0 ∨ cfg.file_type = 1)
    (horc : ∀ p, cfg.orc p = none) :
    ∃ s1, docStep cfg n inP outP s = (s1, none) ∧
      stOk s1 ∧
      s1.dirs = s.dirs ∧
      s1.adv = s.adv + 1 ∧
      (∀ p, p ∈ s1.files ↔
        p ∈ (if exportedDoc cfg n then
          [outP ++ [n ++ extExport cfg.file_type]] else ([] : List Path)) ∨
        p ∈ s.files) ∧
      ((exportedDoc cfg n = true →
          (outP ++ [n ++ extExport cfg.file_type]) ∈ s.files) →
        cfg.force_export = false →
        s1.log.countP Ev.isOpening = s.log.countP Ev.isOpening ∧
        s1.log.countP Ev.isSkippedDone = s.log.countP Ev.isSkippedDone +
          (if exportedDoc cfg n then 1 else 0) ∧
        s1.log.countP Ev.isSkippedExt = s.log.countP Ev.isSkippedExt +
          (if isCat n && cfg.skip_ext.contains (asciiLower (kindOf n)) then 1
           else 0)) := by
  have hkind : pathKind (inP ++ [n]) = kindOf n :=
    pathKind_append n (isCat_dotFree_false hcat)
  have hds : docStep cfg n inP outP s =
      (match exportGate cfg (pathKind (inP ++ [n])) n (existsP s outP)
          (fun a => existsP s (outP ++ [a])) with
        | .skipBlacklist =>
            ({ s with log := .skippedExt n s.fileNum cfg.total :: s.log,
                      fileNum := s.fileNum + 1, adv := s.adv + 1 }, none)
        | .skipExported =>
            ({ s with log := .skippedDone n s.fileNum cfg.total :: s.log,
                      fileNum := s.fileNum + 1, adv := s.adv + 1 }, none)
        | .keyErr => (s, some .keyError)
        | .proceed => export_file cfg (inP ++ [n]) outP s) := rfl
  rw [hds, hkind]
  by_cases hbl : cfg.skip_ext.contains (asciiLower (kindOf n)) = true
  · have hg : exportGate cfg (kindOf n) n (existsP s outP)
        (fun a => existsP s (outP ++ [a])) = .skipBlacklist := by
      unfold exportGate
      rw [if_pos hbl]
    rw [hg]
    have hexp : exportedDoc cfg n = false := by
      unfold exportedDoc
      rw [hbl]
      simp
    have hite : (if exportedDoc cfg n then
        [outP ++ [n ++ extExport cfg.file_type]] else ([] : List Path))
        = [] := by
      rw [hexp]
      simp
    have hite1 : (if exportedDoc cfg n then 1 else 0) = 0 := by
      rw [hexp]
      simp
    have hite2 : (if isCat n && cfg.skip_ext.contains (asciiLower (kindOf n))
        then 1 else 0) = 1 := by
      rw [hcat, hbl]
      simp
    refine ⟨_, rfl, stOk_bump hs _ _ _, rfl, rfl, ?_, ?_⟩
    · intro p
      rw [hite]
      simp
    · intro _ _
      rw [hite1, hite2]
      refine ⟨?_, ?_, ?_⟩
      · simp [List.countP_cons, Ev.isOpening]
      · simp [List.countP_cons, Ev.isSkippedDone]
      · simp [List.countP_cons, Ev.isSkippedExt]
  · have hble : cfg.skip_ext.contains (asciiLower (kindOf n)) = false := by
      simpa using hbl
    have hexp : exportedDoc cfg n = true := by
      unfold exportedDoc
      rw [hble, hcat]
      rfl
    have hite : (if exportedDoc cfg n then
        [outP ++ [n ++ extExport cfg.file_type]] else ([] : List Path))
        = [outP ++ [n ++ extExport cfg.file_type]] := by
      rw [hexp]
      simp
    have hite1 : (if exportedDoc cfg n then 1 else 0) = 1 := by
      rw [hexp]
      simp
    have hite2 : (if isCat n && cfg.skip_ext.contains (asciiLower (kindOf n))
        then 1 else 0) = 0 := by
      rw [hble]
      simp
    by_cases hforce : cfg.force_export = true
    · have hg : exportGate cfg (kindOf n) n (existsP s outP)
          (fun a => existsP s (outP ++ [a])) = .proceed := by
        unfold exportGate
        rw [if_neg (by rw [hble]; simp), hforce]
        simp
      rw [hg, export_file_eq hcat hb hbi horc]
      refine ⟨_, rfl, stOk_savedSt hs hout n, rfl, rfl, ?_, ?_⟩
      · intro p
        rw [hite]
        show p ∈ (outP ++ [n ++ extExport cfg.file_type]) :: s.files ↔ _
        simp [List.mem_cons]
      · intro _ hf0
        rw [hforce] at hf0
        exact absurd hf0 (by simp)
    · have hforcee : cfg.force_export = false := by simpa using hforce
      have houtx : existsP s outP = true := by
        rcases houtd with h | h
        · rw [h]
          unfold existsP
          simp
        · exact existsP_of_dir h
      by_cases hex : existsP s (outP ++ [n ++ extExport cfg.file_type]) = true
      · have hg : exportGate cfg (kindOf n) n (existsP s outP)
            (fun a => existsP s (outP ++ [a])) = .skipExported := by
          unfold exportGate
          rw [if_neg (by rw [hble]; simp), hforcee, houtx]
          rw [extension_dict_extExport hft]
          show (if existsP s (outP ++ [n ++ extExport cfg.file_type])
              then Gate.skipExported else Gate.proceed) = Gate.skipExported
          exact if_pos hex
        rw [hg]
        have hmemf : (outP ++ [n ++ extExport cfg.file_type]) ∈ s.files := by
          rcases existsP_cases hex with h | h | h
          · exact absurd h (by simp)
          · obtain ⟨hd, _, _⟩ := hs
            obtain ⟨_, hben⟩ := hd _ h
            have h2 := hben (n ++ extExport cfg.file_type)
              (List.mem_append_right _ (by simp))
            rw [benignComp_false_of_artifact] at h2
            exact absurd h2 (by simp)
          · exact h
        refine ⟨_, rfl, stOk_bump hs _ _ _, rfl, rfl, ?_, ?_⟩
        · intro p
          rw [hite]
          simp only [List.mem_singleton]
          show p ∈ s.files ↔ _
          constructor
          · exact Or.inr
          · rintro (h | h)
            · rw [h]; exact hmemf
            · exact h
        · intro _ _
          rw [hite1, hite2]
          refine ⟨?_, ?_, ?_⟩
          · simp [List.countP_cons, Ev.isOpening]
          · simp [List.countP_cons, Ev.isSkippedDone]
          · simp [List.countP_cons, Ev.isSkippedExt]
      · have hexe : existsP s (outP ++ [n ++ extExport cfg.file_type])
            = false := by simpa using hex
        have hg : exportGate cfg (kindOf n) n (existsP s outP)
            (fun a => existsP s (outP ++ [a])) = .proceed := by
          unfold exportGate
          rw [if_neg (by rw [hble]; simp), hforcee, houtx]
          rw [extension_dict_extExport hft]
          show (if existsP s (outP ++ [n ++ extExport cfg.file_type])
              then Gate.skipExported else Gate.proceed) = Gate.proceed
          exact if_neg (by rw [hexe]; simp)
        rw [hg, export_file_eq hcat hb hbi horc]
        refine ⟨_, rfl, stOk_savedSt hs hout n, rfl, rfl, ?_, ?_⟩
        · intro p
          rw [hite]
          show p ∈ (outP ++ [n ++ extExport cfg.file_type]) :: s.files ↔ _
          simp [List.mem_cons]
        · intro hsat _
          have h2 := hsat hexp
          rw [existsP_of_file h2] at hexe
          exact absurd hexe (by simp)

/-! ## Crawl characterization -/

theorem crawlSpec_nil {cfg : Cfg} {outP : Path} {s : St} (hs : stOk s) :
    CrawlSpec cfg [] outP s s := by
  refine ⟨hs, by simp [countL], ?_, ?_, ?_⟩
  · intro p
    simp [artifactsL]
  · intro p _
    simp [mirrorsL]
  · intro _ _
    exact ⟨rfl, by simp [okDocsL], by simp [blkL]⟩

theorem crawlSpec_glue {cfg : Cfg} {e : Entry} {es : List Entry} {outP : Path}
    {s s1 s2 : St}
    (h1 : CrawlSpecE cfg e outP s s1) (h2 : CrawlSpec cfg es outP s1 s2) :
    CrawlSpec cfg (e :: es) outP s s2 := by
  obtain ⟨hok1, hadv1, hfi1, hdi1, hcnt1⟩ := h1
  obtain ⟨hok2, hadv2, hfi2, hdi2, hcnt2⟩ := h2
  have hartL : artifactsL cfg outP (e :: es)
      = artifactsE cfg outP e ++ artifactsL cfg outP es := rfl
  have hmirL : mirrorsL outP (e :: es)
      = mirrorsE outP e ++ mirrorsL outP es := rfl
  refine ⟨hok2, ?_, ?_, ?_, ?_⟩
  · show s2.adv = s.adv + countL (e :: es)
    have hcnt : countL (e :: es) = countE e + countL es := rfl
    rw [hadv2, hadv1, hcnt]
    omega
  · intro p
    rw [hfi2 p, hfi1 p, hartL, List.mem_append]
    tauto
  · intro p hp
    rw [hdi2 p hp, hdi1 p hp, hmirL, List.mem_append]
    tauto
  · intro hsat hforce
    have hsat1 : ∀ a ∈ artifactsE cfg outP e, a ∈ s.files := by
      intro a ha
      exact hsat a (by rw [hartL, List.mem_append]; exact Or.inl ha)
    have hsat2 : ∀ a ∈ artifactsL cfg outP es, a ∈ s1.files := by
      intro a ha
      exact (hfi1 a).mpr
        (Or.inr (hsat a (by rw [hartL, List.mem_append]; exact Or.inr ha)))
    obtain ⟨c1, c2, c3⟩ := hcnt1 hsat1 hforce
    obtain ⟨d1, d2, d3⟩ := hcnt2 hsat2 hforce
    have hok : okDocsL cfg (e :: es) = okDocsE cfg e + okDocsL cfg es := rfl
    have hbk : blkL cfg (e :: es) = blkE cfg e + blkL cfg es := rfl
    refine ⟨by rw [d1, c1], ?_, ?_⟩
    · rw [d2, c2, hok]
      omega
    · rw [d3, c3, hbk]
      omega

theorem benignPath_tmp {outP : Path} {b : String} (hout : cleanPath outP = true)
    (hb : dotFree b = true) :
    benignPath (".catminer" :: outP ++ [b]) = true := by
  unfold benignPath
  rw [List.all_eq_true]
  intro c hc
  rcases List.mem_cons.mp hc with h | h
  · subst h
    decide
  · rcases List.mem_append.mp h with h2 | h2
    · exact benignPath_mem (cleanPath_benign hout) h2
    · simp at h2
      subst h2
      unfold benignComp
      simp [hb]

/-- Main characterization of `_dir_crawl` on a well-formed tree: the crawl
returns normally and satisfies `CrawlSpec` — in particular it advances the
progress bar `countL` times, produces exactly the expected artifacts and
mirror directories, and on a saturated output tree only logs skips. -/
theorem crawl_master (cfg : Cfg)
    (hft : cfg.file_type = 0 ∨ cfg.file_type = 1)
    (horc : ∀ p, cfg.orc p = none) :
    ∀ (N : Nat) (es : List Entry) (inP outP : Path) (s : St),
    sizeOf es ≤ N →
    tidyL es = true → benignPath inP = true → cleanPath outP = true →
    stOk s → (outP = [] ∨ outP ∈ s.dirs) →
    ∃ s1, dir_crawlL cfg es inP outP s = (s1, none) ∧
      CrawlSpec cfg es outP s s1 := by
  intro N
  induction N with
  | zero =>
    intro es inP outP s hsz ht hbi hout hs houtd
    cases es with
    | nil => exact ⟨s, rfl, crawlSpec_nil hs⟩
    | cons e es => exact absurd hsz (by intro h; exact sizeOf_cons_zero h)
  | succ N ih =>
    intro es inP outP s hsz ht hbi hout hs houtd
    cases es with
    | nil => exact ⟨s, rfl, crawlSpec_nil hs⟩
    | cons e es =>
      obtain ⟨h1, h2⟩ := tidyL_cons ht
      have hhd : ∃ s1, dir_crawlE cfg e inP outP s = (s1, none) ∧
          CrawlSpecE cfg e outP s s1 := by
        cases e with
        | unreadable n => exact absurd h1 (by simp [tidyE])
        | raw n =>
          have he : dir_crawlE cfg (.raw n) inP outP s =
              (if isCatPath (inP ++ [n]) then docStep cfg n inP outP s
               else (s, none)) := rfl
          rw [isCatPath_append n hbi] at he
          by_cases hcat : isCat n = true
          · rw [if_pos hcat] at he
            obtain ⟨b, hb⟩ := tidyE_raw h1 hcat
            obtain ⟨s1, hd, hok, hdirs, hadv, hfi, hcnt⟩ :=
              docStep_spec hcat hb hbi hout hs houtd hft horc
            refine ⟨s1, by rw [he]; exact hd, hok, ?_, ?_, ?_, ?_⟩
            · rw [hadv]
              have hc : countE (.raw n) = 1 := by
                show (if isCat n then 1 else 0) = 1
                rw [hcat]
                simp
              rw [hc]
            · exact hfi
            · intro p hp
              rw [hdirs]
              have hm : mirrorsE outP (Entry.raw n) = [] := rfl
              rw [hm]
              simp
            · intro hsat hforce
              have hsat1 : exportedDoc cfg n = true →
                  (outP ++ [n ++ extExport cfg.file_type]) ∈ s.files := by
                intro hx
                apply hsat
                show _ ∈ (if exportedDoc cfg n then
                  [outP ++ [n ++ extExport cfg.file_type]] else ([] : List Path))
                rw [hx]
                simp
              exact hcnt hsat1 hforce
          · have hcatF : isCat n = false := by simpa using hcat
            rw [hcatF] at he
            simp only [Bool.false_eq_true, if_false] at he
            have hexpF : exportedDoc cfg n = false := by
              unfold exportedDoc
              rw [hcatF]
              rfl
            have hart : artifactsE cfg outP (Entry.raw n) = [] := by
              show (if exportedDoc cfg n then
                [outP ++ [n ++ extExport cfg.file_type]] else ([] : List Path)) = []
              rw [hexpF]
              simp
            have hcnt0 : countE (.raw n) = 0 := by
              show (if isCat n then 1 else 0) = 0
              rw [hcatF]
              simp
            have hok0 : okDocsE cfg (.raw n) = 0 := by
              show (if exportedDoc cfg n then 1 else 0) = 0
              rw [hexpF]
              simp
            have hbk0 : blkE cfg (.raw n) = 0 := by
              show (if isCat n && cfg.skip_ext.contains (asciiLower (kindOf n))
                then 1 else 0) = 0
              rw [hcatF]
              simp
            refine ⟨s, he, hs, ?_, ?_, ?_, ?_⟩
            · rw [hcnt0]
              simp
            · intro p
              rw [hart]
              simp
            · intro p hp
              have hm : mirrorsE outP (Entry.raw n) = [] := rfl
              rw [hm]
              simp
            · intro _ _
              rw [hok0, hbk0]
              exact ⟨rfl, rfl, rfl⟩
        | dir n cs =>
          obtain ⟨hdf, hcs⟩ := tidyE_dir h1
          have hfOk : filesOk s := hs.2.1
          have hsOk0 : stOk (mkdirIfAbsent s (outP ++ [n])) :=
            stOk_mkdir hs hout hdf houtd
          have hmem0 : (outP ++ [n]) ∈ (mkdirIfAbsent s (outP ++ [n])).dirs :=
            mkdirIfAbsent_mem_self hfOk hdf
          obtain ⟨s1, hcrawl, hspec⟩ := ih cs (inP ++ [n]) (outP ++ [n])
            (mkdirIfAbsent s (outP ++ [n])) (sizeOf_cons_dir hsz).1 hcs
            (benignPath_append hbi (by unfold benignComp; simp [hdf]))
            (cleanPath_append hout hdf) hsOk0 (Or.inr hmem0)
          obtain ⟨hok1, hadv1, hfi1, hdi1, hcnt1⟩ := hspec
          refine ⟨s1, hcrawl, hok1, ?_, ?_, ?_, ?_⟩
          · rw [hadv1, mkdirIfAbsent_adv]
            rfl
          · intro p
            rw [hfi1 p, mkdirIfAbsent_files]
            rfl
          · intro p hp
            rw [hdi1 p hp, mkdirIfAbsent_dirs_iff hfOk hdf p]
            have hm : mirrorsE outP (Entry.dir n cs)
                = (outP ++ [n]) :: mirrorsL (outP ++ [n]) cs := rfl
            rw [hm, List.mem_cons]
            tauto
          · intro hsat hforce
            have hsat1 : ∀ a ∈ artifactsL cfg (outP ++ [n]) cs,
                a ∈ (mkdirIfAbsent s (outP ++ [n])).files := by
              intro a ha
              rw [mkdirIfAbsent_files]
              exact hsat a ha
            obtain ⟨c1, c2, c3⟩ := hcnt1 hsat1 hforce
            have hcp : ∀ f : Ev → Bool, (∀ q, f (.created q) = false) →
                (mkdirIfAbsent s (outP ++ [n])).log.countP f = s.log.countP f :=
              fun f hf => mkdirIfAbsent_countP s _ f hf
            refine ⟨?_, ?_, ?_⟩
            · rw [c1, hcp Ev.isOpening (fun q => rfl)]
            · rw [c2, hcp Ev.isSkippedDone (fun q => rfl)]
              rfl
            · rw [c3, hcp Ev.isSkippedExt (fun q => rfl)]
              rfl
        | zip n ms =>
          have he : dir_crawlE cfg (.zip n ms) inP outP s =
              (if hasCATProcess (inP ++ [n]) then
                (if isCatPath (inP ++ [n]) then docStep cfg n inP outP s
                 else (s, none))
               else
                match fileReFirst (inP ++ [n]) with
                | none => (s, some .indexError)
                | some base =>
                  if extractOkL ms then
                    match dir_crawlL cfg ms (".catminer" :: outP ++ [base])
                        (outP ++ [base])
                        (makedirs (mkdirIfAbsent s (outP ++ [base]))
                          (".catminer" :: outP ++ [base])) with
                    | (s3, some e) => (s3, some e)
                    | (s3, none) =>
                        (rmtree { s3 with log := .removing (".catminer" :: outP ++ [base]) :: s3.log } (".catminer" :: outP ++ [base]), none)
                  else (makedirs (mkdirIfAbsent s (outP ++ [base]))
                    (".catminer" :: outP ++ [base]), some .extractError)) := rfl
          rw [hasCATProcess_append n hbi, isCatPath_append n hbi] at he
          by_cases hp : hasSub ".CATProcess" n = true
          · rw [if_pos hp] at he
            obtain ⟨hcat, b, hb⟩ := tidyE_zip_proc h1 hp
            rw [if_pos hcat] at he
            obtain ⟨s1, hd, hok, hdirs, hadv, hfi, hcnt⟩ :=
              docStep_spec hcat hb hbi hout hs houtd hft horc
            have hartE : artifactsE cfg outP (Entry.zip n ms)
                = (if exportedDoc cfg n then
                  [outP ++ [n ++ extExport cfg.file_type]] else ([] : List Path)) := by
              show (if hasSub ".CATProcess" n then _ else _) = _
              rw [hp]
              simp
            have hmirE : mirrorsE outP (Entry.zip n ms) = [] := by
              show (if hasSub ".CATProcess" n then ([] : List Path) else _) = []
              rw [hp]
              simp
            have hcntE : countE (Entry.zip n ms) = 1 := by
              show (if isCat n then 1 else countL ms) = 1
              rw [hcat]
              simp
            have hokE : okDocsE cfg (Entry.zip n ms)
                = (if exportedDoc cfg n then 1 else 0) := by
              show (if hasSub ".CATProcess" n then _ else _) = _
              rw [hp]
              simp
            have hbkE : blkE cfg (Entry.zip n ms)
                = (if isCat n && cfg.skip_ext.contains (asciiLower (kindOf n))
                  then 1 else 0) := by
              show (if hasSub ".CATProcess" n then _ else _) = _
              rw [hp]
              simp
            refine ⟨s1, by rw [he]; exact hd, hok, ?_, ?_, ?_, ?_⟩
            · rw [hadv, hcntE]
            · intro p
              rw [hartE]
              exact hfi p
            · intro p hp2
              rw [hdirs, hmirE]
              simp
            · intro hsat hforce
              rw [hartE] at hsat
              rw [hokE, hbkE]
              have hsat1 : exportedDoc cfg n = true →
                  (outP ++ [n ++ extExport cfg.file_type]) ∈ s.files := by
                intro hx
                apply hsat
                rw [hx]
                simp
              exact hcnt hsat1 hforce
          · have hpF : hasSub ".CATProcess" n = false := by simpa using hp
            rw [hpF] at he
            simp only [Bool.false_eq_true, if_false] at he
            obtain ⟨hnc, ⟨b, hb, hbdf⟩, hms⟩ := tidyE_zip_arch h1 hpF
            have hfr : fileReFirst (inP ++ [n]) = some b := by
              rw [fileReFirst_append [n] hbi, fileReFirst_single]
              exact hb
            rw [hfr] at he
            have hxok : extractOkL ms = true :=
              tidy_extractOk (sizeOf ms) ms le_rfl hms
            rw [hxok] at he
            simp only [if_true] at he
            -- names for the intermediate states
            have hfOk : filesOk s := hs.2.1
            have hsOk1 : stOk (mkdirIfAbsent s (outP ++ [b])) :=
              stOk_mkdir hs hout hbdf houtd
            have hsOk2 : stOk (makedirs (mkdirIfAbsent s (outP ++ [b]))
                (".catminer" :: outP ++ [b])) := by
              apply stOk_makedirs hsOk1
              intro x hx
              exact benignPath_mem (benignPath_tmp hout hbdf) hx
            have hmem1 : (outP ++ [b]) ∈ (mkdirIfAbsent s (outP ++ [b])).dirs :=
              mkdirIfAbsent_mem_self hfOk hbdf
            have hmem2 : (outP ++ [b]) ∈ (makedirs (mkdirIfAbsent s (outP ++ [b]))
                (".catminer" :: outP ++ [b])).dirs :=
              makedirs_dirs_mono hmem1
            obtain ⟨s3, hcrawl, hspec⟩ := ih ms (".catminer" :: outP ++ [b])
              (outP ++ [b])
              (makedirs (mkdirIfAbsent s (outP ++ [b]))
                (".catminer" :: outP ++ [b]))
              (sizeOf_cons_zip hsz).1 hms (benignPath_tmp hout hbdf)
              (cleanPath_append hout hbdf) hsOk2 (Or.inr hmem2)
            obtain ⟨hok3, hadv3, hfi3, hdi3, hcnt3⟩ := hspec
            rw [hcrawl] at he
            -- the final state after the per-archive cleanup
            refine ⟨_, he, ?_, ?_, ?_, ?_, ?_⟩
            · exact stOk_rmtree (stOk_bump hok3 _ _ _) _
            · have hra : (rmtree { s3 with log := .removing (".catminer" :: outP ++ [b]) :: s3.log } (".catminer" :: outP ++ [b])).adv = s3.adv := rfl
              show _ = s.adv + countE (Entry.zip n ms)
              rw [hra, hadv3, makedirs_adv, mkdirIfAbsent_adv]
              have hcntE : countE (Entry.zip n ms) = countL ms := by
                show (if isCat n then 1 else countL ms) = countL ms
                rw [hnc]
                simp
              rw [hcntE]
            · intro q
              have hartE : artifactsE cfg outP (Entry.zip n ms)
                  = artifactsL cfg (outP ++ [b]) ms := by
                show (if hasSub ".CATProcess" n then
                    (if exportedDoc cfg n then
                      [outP ++ [n ++ extExport cfg.file_type]] else [])
                  else match upToLastDot? n with
                    | some b2 => artifactsL cfg (outP ++ [b2]) ms
                    | none => ([] : List Path))
                  = artifactsL cfg (outP ++ [b]) ms
                rw [hpF, hb]
                simp
              rw [hartE, rmtree_files_mem]
              show q ∈ s3.files ∧ _ ↔ _
              rw [hfi3 q, makedirs_files, mkdirIfAbsent_files]
              constructor
              · rintro ⟨hq, _⟩
                exact hq
              · intro hq
                refine ⟨hq, ?_⟩
                intro hpre
                have hne : (".catminer" :: outP ++ [b] : Path) ≠ [] := by simp
                have hhead := isPrefixOf_head hpre hne
                rcases hq with hq | hq
                · exact artifacts_head_ne hms (cleanPath_append hout hbdf) q hq
                    (by rw [← hhead]; rfl)
                · exact (hfOk q hq).2 (by rw [← hhead]; rfl)
            · intro q hq2
              have hmirE : mirrorsE outP (Entry.zip n ms)
                  = (outP ++ [b]) :: mirrorsL (outP ++ [b]) ms := by
                show (if hasSub ".CATProcess" n then ([] : List Path)
                  else match upToLastDot? n with
                    | some b2 => (outP ++ [b2]) :: mirrorsL (outP ++ [b2]) ms
                    | none => ([] : List Path))
                  = (outP ++ [b]) :: mirrorsL (outP ++ [b]) ms
                rw [hpF, hb]
                simp
              have hq4 : ¬(".catminer" :: outP ++ [b] : Path).isPrefixOf q = true := by
                intro hpre
                have hne : (".catminer" :: outP ++ [b] : Path) ≠ [] := by simp
                exact hq2 (by rw [← isPrefixOf_head hpre hne]; rfl)
              have hq3 : q ∉ nonNilInits ((".catminer" :: outP) ++ [b]) := by
                intro hqm
                rw [nonNilInits_mem] at hqm
                exact hq2 (prefix_catminer_head hqm.1 hqm.2)
              rw [hmirE, rmtree_dirs_mem]
              show q ∈ s3.dirs ∧ _ ↔ _
              rw [hdi3 q hq2,
                makedirs_dirs_iff hsOk1.2.1 hsOk1.2.2 hbdf q,
                mkdirIfAbsent_dirs_iff hfOk hbdf q, List.mem_cons]
              constructor
              · rintro ⟨hq, _⟩
                rcases hq with hq | hq | hq | hq
                · exact Or.inl (Or.inr hq)
                · exact absurd hq hq3
                · exact Or.inl (Or.inl hq)
                · exact Or.inr hq
              · intro hq
                refine ⟨?_, hq4⟩
                rcases hq with (hq | hq) | hq
                · exact Or.inr (Or.inr (Or.inl hq))
                · exact Or.inl hq
                · exact Or.inr (Or.inr (Or.inr hq))
            · intro hsat hforce
              have hartE : artifactsE cfg outP (Entry.zip n ms)
                  = artifactsL cfg (outP ++ [b]) ms := by
                show (if hasSub ".CATProcess" n then
                    (if exportedDoc cfg n then
                      [outP ++ [n ++ extExport cfg.file_type]] else [])
                  else match upToLastDot? n with
                    | some b2 => artifactsL cfg (outP ++ [b2]) ms
                    | none => ([] : List Path))
                  = artifactsL cfg (outP ++ [b]) ms
                rw [hpF, hb]
                simp
              rw [hartE] at hsat
              have hsat1 : ∀ a ∈ artifactsL cfg (outP ++ [b]) ms,
                  a ∈ (makedirs (mkdirIfAbsent s (outP ++ [b]))
                    (".catminer" :: outP ++ [b])).files := by
                intro a ha
                rw [makedirs_files, mkdirIfAbsent_files]
                exact hsat a ha
              obtain ⟨c1, c2, c3⟩ := hcnt3 hsat1 hforce
              have hokE : okDocsE cfg (Entry.zip n ms) = okDocsL cfg ms := by
                show (if hasSub ".CATProcess" n then
                    (if exportedDoc cfg n then 1 else 0)
                  else okDocsL cfg ms) = okDocsL cfg ms
                rw [hpF]
                simp
              have hbkE : blkE cfg (Entry.zip n ms) = blkL cfg ms := by
                show (if hasSub ".CATProcess" n then
                    (if isCat n && cfg.skip_ext.contains (asciiLower (kindOf n))
                      then 1 else 0)
                  else blkL cfg ms) = blkL cfg ms
                rw [hpF]
                simp
              have hrlog : ∀ f : Ev → Bool, (∀ q, f (.removing q) = false) →
                  (rmtree { s3 with log := .removing (".catminer" :: outP ++ [b]) :: s3.log } (".catminer" :: outP ++ [b])).log.countP f
                    = s3.log.countP f := by
                intro f hf
                show List.countP f (.removing (".catminer" :: outP ++ [b]) :: s3.log)
                  = s3.log.countP f
                simp [List.countP_cons, hf]
              have hmk : ∀ f : Ev → Bool, (∀ q, f (.created q) = false) →
                  (makedirs (mkdirIfAbsent s (outP ++ [b]))
                    (".catminer" :: outP ++ [b])).log.countP f = s.log.countP f := by
                intro f hf
                rw [makedirs_countP _ _ f hf, mkdirIfAbsent_countP _ _ f hf]
              refine ⟨?_, ?_, ?_⟩
              · rw [hrlog Ev.isOpening (fun q => rfl), c1,
                  hmk Ev.isOpening (fun q => rfl)]
              · rw [hrlog Ev.isSkippedDone (fun q => rfl), c2,
                  hmk Ev.isSkippedDone (fun q => rfl), hokE]
              · rw [hrlog Ev.isSkippedExt (fun q => rfl), c3,
                  hmk Ev.isSkippedExt (fun q => rfl), hbkE]
      obtain ⟨s1, he, hspecE⟩ := hhd
      have houtd1 : outP = [] ∨ outP ∈ s1.dirs := by
        rcases houtd with h | h
        · exact Or.inl h
        · exact Or.inr ((hspecE.2.2.2.1 outP (clean_head_ne hout)).mpr (Or.inr h))
      obtain ⟨s2, htl, hspecL⟩ := ih es inP outP s1 (sizeOf_cons_tail hsz) h2
        hbi hout hspecE.1 houtd1
      refine ⟨s2, ?_, crawlSpec_glue hspecE hspecL⟩
      show (match dir_crawlE cfg e inP outP s with
        | (s1, some err) => (s1, some err)
        | (s1, none) => dir_crawlL cfg es inP outP s1) = (s2, none)
      rw [he]
      exact htl

/-- The crawl-specification quantities depend only on the `file_type` and
`skip_ext` fields of the configuration (not on `total`, `force_export` or the
export outcomes). -/
theorem cfg_inv (cfg cfg' : Cfg) (hft : cfg.file_type = cfg'.file_type)
    (hse : cfg.skip_ext = cfg'.skip_ext) : ∀ (N : Nat) (es : List Entry),
    sizeOf es ≤ N → ∀ outP : Path,
      artifactsL cfg outP es = artifactsL cfg' outP es ∧
      okDocsL cfg es = okDocsL cfg' es ∧ blkL cfg es = blkL cfg' es := by
  have hdoc : ∀ n, exportedDoc cfg n = exportedDoc cfg' n := by
    intro n
    unfold exportedDoc
    rw [hse]
  have hart : ∀ n : String, n ++ extExport cfg.file_type = n ++ extExport cfg'.file_type := by
    intro n
    unfold extExport
    rw [hft]
  intro N
  induction N with
  | zero =>
    intro es hsz
    cases es with
    | nil =>
      intro outP
      exact ⟨rfl, rfl, rfl⟩
    | cons e es => exact absurd hsz (fun h => sizeOf_cons_zero h)
  | succ N ih =>
    intro es hsz outP
    cases es with
    | nil => exact ⟨rfl, rfl, rfl⟩
    | cons e es =>
      cases e with
      | dir n cs =>
        obtain ⟨h1, h2⟩ := sizeOf_cons_dir hsz
        obtain ⟨a1, o1, b1⟩ := ih cs h1 (outP ++ [n])
        obtain ⟨a2, o2, b2⟩ := ih es h2 outP
        refine ⟨?_, ?_, ?_⟩
        · show artifactsL cfg (outP ++ [n]) cs ++ artifactsL cfg outP es
            = artifactsL cfg' (outP ++ [n]) cs ++ artifactsL cfg' outP es
          rw [a1, a2]
        · show okDocsL cfg cs + okDocsL cfg es = okDocsL cfg' cs + okDocsL cfg' es
          rw [o1, o2]
        · show blkL cfg cs + blkL cfg es = blkL cfg' cs + blkL cfg' es
          rw [b1, b2]
      | raw n =>
        obtain ⟨a2, o2, b2⟩ := ih es (sizeOf_cons_tail hsz) outP
        refine ⟨?_, ?_, ?_⟩
        · show (if exportedDoc cfg n then [outP ++ [n ++ extExport cfg.file_type]] else [])
              ++ artifactsL cfg outP es
            = (if exportedDoc cfg' n then [outP ++ [n ++ extExport cfg'.file_type]] else [])
              ++ artifactsL cfg' outP es
          rw [hdoc, hart, a2]
        · show (if exportedDoc cfg n then 1 else 0) + okDocsL cfg es
            = (if exportedDoc cfg' n then 1 else 0) + okDocsL cfg' es
          rw [hdoc, o2]
        · show (if isCat n && cfg.skip_ext.contains (asciiLower (kindOf n)) then 1 else 0)
              + blkL cfg es
            = (if isCat n && cfg'.skip_ext.contains (asciiLower (kindOf n)) then 1 else 0)
              + blkL cfg' es
          rw [hse, b2]
      | zip n ms =>
        obtain ⟨h1, h2⟩ := sizeOf_cons_zip hsz
        obtain ⟨a2, o2, b2⟩ := ih es h2 outP
        by_cases hps : hasSub ".CATProcess" n = true
        · refine ⟨?_, ?_, ?_⟩
          · show (if hasSub ".CATProcess" n then
                  (if exportedDoc cfg n then [outP ++ [n ++ extExport cfg.file_type]] else [])
                else (match upToLastDot? n with
                  | some b => artifactsL cfg (outP ++ [b]) ms
                  | none => [])) ++ artifactsL cfg outP es
              = (if hasSub ".CATProcess" n then
                  (if exportedDoc cfg' n then [outP ++ [n ++ extExport cfg'.file_type]] else [])
                else (match upToLastDot? n with
                  | some b => artifactsL cfg' (outP ++ [b]) ms
                  | none => [])) ++ artifactsL cfg' outP es
            rw [if_pos hps, if_pos hps, hdoc, hart, a2]
          · show (if hasSub ".CATProcess" n then (if exportedDoc cfg n then 1 else 0)
                else okDocsL cfg ms) + okDocsL cfg es
              = (if hasSub ".CATProcess" n then (if exportedDoc cfg' n then 1 else 0)
                else okDocsL cfg' ms) + okDocsL cfg' es
            rw [if_pos hps, if_pos hps, hdoc, o2]
          · show (if hasSub ".CATProcess" n then
                  (if isCat n && cfg.skip_ext.contains (asciiLower (kindOf n)) then 1 else 0)
                else blkL cfg ms) + blkL cfg es
              = (if hasSub ".CATProcess" n then
                  (if isCat n && cfg'.skip_ext.contains (asciiLower (kindOf n)) then 1 else 0)
                else blkL cfg' ms) + blkL cfg' es
            rw [if_pos hps, if_pos hps, hse, b2]
        · obtain ⟨a1, o1, b1⟩ := ih ms h1 outP
          refine ⟨?_, ?_, ?_⟩
          · show (if hasSub ".CATProcess" n then
                  (if exportedDoc cfg n then [outP ++ [n ++ extExport cfg.file_type]] else [])
                else (match upToLastDot? n with
                  | some b => artifactsL cfg (outP ++ [b]) ms
                  | none => [])) ++ artifactsL cfg outP es
              = (if hasSub ".CATProcess" n then
                  (if exportedDoc cfg' n then [outP ++ [n ++ extExport cfg'.file_type]] else [])
                else (match upToLastDot? n with
                  | some b => artifactsL cfg' (outP ++ [b]) ms
                  | none => [])) ++ artifactsL cfg' outP es
            rw [if_neg hps, if_neg hps]
            cases hup : upToLastDot? n with
            | none => rw [a2]
            | some b =>
              show artifactsL cfg (outP ++ [b]) ms ++ artifactsL cfg outP es
                = artifactsL cfg' (outP ++ [b]) ms ++ artifactsL cfg' outP es
              rw [(ih ms h1 (outP ++ [b])).1, a2]
          · show (if hasSub ".CATProcess" n then (if exportedDoc cfg n then 1 else 0)
                else okDocsL cfg ms) + okDocsL cfg es
              = (if hasSub ".CATProcess" n then (if exportedDoc cfg' n then 1 else 0)
                else okDocsL cfg' ms) + okDocsL cfg' es
            rw [if_neg hps, if_neg hps, o1, o2]
          · show (if hasSub ".CATProcess" n then
                  (if isCat n && cfg.skip_ext.contains (asciiLower (kindOf n)) then 1 else 0)
                else blkL cfg ms) + blkL cfg es
              = (if hasSub ".CATProcess" n then
                  (if isCat n && cfg'.skip_ext.contains (asciiLower (kindOf n)) then 1 else 0)
                else blkL cfg' ms) + blkL cfg' es
            rw [if_neg hps, if_neg hps, b1, b2]
      | unreadable n =>
        obtain ⟨a2, o2, b2⟩ := ih es (sizeOf_cons_tail hsz) outP
        refine ⟨?_, ?_, ?_⟩
        · show (if exportedDoc cfg n then [outP ++ [n ++ extExport cfg.file_type]] else [])
              ++ artifactsL cfg outP es
            = (if exportedDoc cfg' n then [outP ++ [n ++ extExport cfg'.file_type]] else [])
              ++ artifactsL cfg' outP es
          rw [hdoc, hart, a2]
        · show (if exportedDoc cfg n then 1 else 0) + okDocsL cfg es
            = (if exportedDoc cfg' n then 1 else 0) + okDocsL cfg' es
          rw [hdoc, o2]
        · show (if isCat n && cfg.skip_ext.contains (asciiLower (kindOf n)) then 1 else 0)
              + blkL cfg es
            = (if isCat n && cfg'.skip_ext.contains (asciiLower (kindOf n)) then 1 else 0)
              + blkL cfg' es
          rw [hse, b2]

/-- On a well-formed tree every document is classified by the blacklist:
the passing documents and the blacklisted documents together are exactly the
documents `cat_count` promises. -/
theorem count_split (cfg : Cfg) : ∀ (N : Nat) (es : List Entry),
    sizeOf es ≤ N → tidyL es = true →
    okDocsL cfg es + blkL cfg es = countL es := by
  intro N
  induction N with
  | zero =>
    intro es hsz _
    cases es with
    | nil => rfl
    | cons e es => exact absurd hsz (fun h => sizeOf_cons_zero h)
  | succ N ih =>
    intro es hsz ht
    cases es with
    | nil => rfl
    | cons e es =>
      obtain ⟨hte, htl⟩ := tidyL_cons ht
      cases e with
      | dir n cs =>
        obtain ⟨h1, h2⟩ := sizeOf_cons_dir hsz
        have i1 := ih cs h1 (tidyE_dir hte).2
        have i2 := ih es h2 htl
        show okDocsL cfg cs + okDocsL cfg es + (blkL cfg cs + blkL cfg es)
          = countL cs + countL es
        omega
      | raw n =>
        have i2 := ih es (sizeOf_cons_tail hsz) htl
        show (if exportedDoc cfg n then 1 else 0) + okDocsL cfg es
            + ((if isCat n && cfg.skip_ext.contains (asciiLower (kindOf n)) then 1 else 0)
              + blkL cfg es)
          = (if isCat n then 1 else 0) + countL es
        cases hcat : isCat n with
        | false =>
          have hed : exportedDoc cfg n = false := by simp [exportedDoc, hcat]
          rw [if_neg (by rw [hed]; simp), if_neg (by simp), if_neg (by simp)]
          omega
        | true =>
          cases hsk : cfg.skip_ext.contains (asciiLower (kindOf n)) with
          | false =>
            have hed : exportedDoc cfg n = true := by unfold exportedDoc; rw [hcat, hsk]; rfl
            rw [if_pos hed, if_neg (by simpa using hsk), if_pos rfl]
            omega
          | true =>
            have hed : exportedDoc cfg n = false := by unfold exportedDoc; rw [hcat, hsk]; rfl
            rw [if_neg (by rw [hed]; simp), if_pos (by simpa using hsk), if_pos rfl]
            omega
      | zip n ms =>
        obtain ⟨h1, h2⟩ := sizeOf_cons_zip hsz
        have i2 := ih es h2 htl
        show (if hasSub ".CATProcess" n then (if exportedDoc cfg n then 1 else 0)
              else okDocsL cfg ms) + okDocsL cfg es
            + ((if hasSub ".CATProcess" n then
                (if isCat n && cfg.skip_ext.contains (asciiLower (kindOf n)) then 1 else 0)
              else blkL cfg ms) + blkL cfg es)
          = (if isCat n then 1 else countL ms) + countL es
        by_cases hps : hasSub ".CATProcess" n = true
        · obtain ⟨hcat, _⟩ := tidyE_zip_proc hte hps
          rw [if_pos hps, if_pos hps, if_pos hcat]
          cases hsk : cfg.skip_ext.contains (asciiLower (kindOf n)) with
          | false =>
            have hed : exportedDoc cfg n = true := by
              unfold exportedDoc; rw [hcat, hsk]; rfl
            rw [if_pos hed, if_neg (by simp)]
            omega
          | true =>
            have hed : exportedDoc cfg n = false := by
              unfold exportedDoc; rw [hcat, hsk]; rfl
            rw [if_neg (by rw [hed]; simp), if_pos (by simp [hcat])]
            omega
        · obtain ⟨hcat, _, htm⟩ := tidyE_zip_arch hte (by simpa using hps)
          have i1 := ih ms h1 htm
          rw [if_neg hps, if_neg hps, if_neg (by rw [hcat]; simp)]
          omega
      | unreadable n => exact absurd (tidyE_unreadable hte) (fun h => h)

theorem mkdirIfAbsent_dirs_mono {s : St} {q p : Path} (h : p ∈ s.dirs) :
    p ∈ (mkdirIfAbsent s q).dirs := by
  unfold mkdirIfAbsent
  split
  · exact h
  · simp [h]

/-- One document step preserves the state invariants and never touches the
directory set, whatever the gate decides and whatever the export outcome is. -/
theorem docStep_stOk {cfg : Cfg} {n : String} {inP outP : Path} {s : St}
    (hs : stOk s) (hout : cleanPath outP = true) :
    stOk (docStep cfg n inP outP s).1 ∧ (docStep cfg n inP outP s).1.dirs = s.dirs := by
  have hds : docStep cfg n inP outP s =
      (match exportGate cfg (pathKind (inP ++ [n])) n (existsP s outP)
          (fun a => existsP s (outP ++ [a])) with
        | .skipBlacklist =>
            ({ s with log := .skippedExt n s.fileNum cfg.total :: s.log,
                      fileNum := s.fileNum + 1, adv := s.adv + 1 }, none)
        | .skipExported =>
            ({ s with log := .skippedDone n s.fileNum cfg.total :: s.log,
                      fileNum := s.fileNum + 1, adv := s.adv + 1 }, none)
        | .keyErr => (s, some .keyError)
        | .proceed => export_file cfg (inP ++ [n]) outP s) := rfl
  rw [hds]
  cases exportGate cfg (pathKind (inP ++ [n])) n (existsP s outP)
      (fun a => existsP s (outP ++ [a])) with
  | skipBlacklist => exact ⟨stOk_bump hs _ _ _, rfl⟩
  | skipExported => exact ⟨stOk_bump hs _ _ _, rfl⟩
  | keyErr => exact ⟨hs, rfl⟩
  | proceed =>
    unfold export_file
    cases fileReFirst (inP ++ [n]) with
    | none => exact ⟨hs, rfl⟩
    | some f =>
      cases cfg.orc (inP ++ [n]) with
      | some e => exact ⟨stOk_bump hs _ _ _, rfl⟩
      | none => exact ⟨stOk_savedSt hs hout _, rfl⟩

/-- Whatever the export outcomes (including raised exports, interrupts and
key errors), crawling a well-formed tree preserves the state invariants, and
every non-staging directory survives.  Unlike the full characterization this
needs no assumption on `cfg` at all. -/
theorem crawl_stOk_any (cfg : Cfg) :
    ∀ (N : Nat) (es : List Entry) (inP outP : Path) (s : St),
    sizeOf es ≤ N →
    tidyL es = true → benignPath inP = true → cleanPath outP = true →
    stOk s → (outP = [] ∨ outP ∈ s.dirs) →
    stOk (dir_crawlL cfg es inP outP s).1 ∧
      (∀ p ∈ s.dirs, p.head? ≠ some ".catminer" →
        p ∈ (dir_crawlL cfg es inP outP s).1.dirs) := by
  intro N
  induction N with
  | zero =>
    intro es inP outP s hsz ht hbi hout hs houtd
    cases es with
    | nil => exact ⟨hs, fun p hp _ => hp⟩
    | cons e es => exact absurd hsz (fun h => sizeOf_cons_zero h)
  | succ N ih =>
    intro es inP outP s hsz ht hbi hout hs houtd
    cases es with
    | nil => exact ⟨hs, fun p hp _ => hp⟩
    | cons e es =>
      obtain ⟨h1, h2⟩ := tidyL_cons ht
      have hhd : stOk (dir_crawlE cfg e inP outP s).1 ∧
          (∀ p ∈ s.dirs, p.head? ≠ some ".catminer" →
            p ∈ (dir_crawlE cfg e inP outP s).1.dirs) := by
        cases e with
        | unreadable n => exact absurd (tidyE_unreadable h1) (fun h => h)
        | raw n =>
          have he : dir_crawlE cfg (.raw n) inP outP s =
              (if isCatPath (inP ++ [n]) then docStep cfg n inP outP s
               else (s, none)) := rfl
          rw [he]
          split
          · obtain ⟨hds1, hds2⟩ := docStep_stOk hs hout
            exact ⟨hds1, fun p hp _ => by rw [hds2]; exact hp⟩
          · exact ⟨hs, fun p hp _ => hp⟩
        | dir n cs =>
          obtain ⟨hdf, hcs⟩ := tidyE_dir h1
          have hfOk : filesOk s := hs.2.1
          have hsOk0 : stOk (mkdirIfAbsent s (outP ++ [n])) :=
            stOk_mkdir hs hout hdf houtd
          have hmem0 : (outP ++ [n]) ∈ (mkdirIfAbsent s (outP ++ [n])).dirs :=
            mkdirIfAbsent_mem_self hfOk hdf
          have he : dir_crawlE cfg (.dir n cs) inP outP s =
              dir_crawlL cfg cs (inP ++ [n]) (outP ++ [n])
                (mkdirIfAbsent s (outP ++ [n])) := rfl
          rw [he]
          obtain ⟨ha, hb⟩ := ih cs (inP ++ [n]) (outP ++ [n])
            (mkdirIfAbsent s (outP ++ [n])) (sizeOf_cons_dir hsz).1 hcs
            (benignPath_append hbi (by unfold benignComp; simp [hdf]))
            (cleanPath_append hout hdf) hsOk0 (Or.inr hmem0)
          refine ⟨ha, fun p hp hnc => ?_⟩
          exact hb p (mkdirIfAbsent_dirs_mono hp) hnc
        | zip n ms =>
          have he : dir_crawlE cfg (.zip n ms) inP outP s =
              (if hasCATProcess (inP ++ [n]) then
                (if isCatPath (inP ++ [n]) then docStep cfg n inP outP s
                 else (s, none))
               else
                match fileReFirst (inP ++ [n]) with
                | none => (s, some .indexError)
                | some base =>
                  if extractOkL ms then
                    match dir_crawlL cfg ms (".catminer" :: outP ++ [base])
                        (outP ++ [base])
                        (makedirs (mkdirIfAbsent s (outP ++ [base]))
                          (".catminer" :: outP ++ [base])) with
                    | (s3, some e) => (s3, some e)
                    | (s3, none) =>
                        (rmtree { s3 with log := .removing (".catminer" :: outP ++ [base]) :: s3.log } (".catminer" :: outP ++ [base]), none)
                  else (makedirs (mkdirIfAbsent s (outP ++ [base]))
                    (".catminer" :: outP ++ [base]), some .extractError)) := rfl
          rw [he]
          by_cases hp : hasSub ".CATProcess" n = true
          · rw [hasCATProcess_append n hbi, hp]
            simp only [if_true]
            split
            · obtain ⟨hds1, hds2⟩ := docStep_stOk hs hout
              exact ⟨hds1, fun p hp2 _ => by rw [hds2]; exact hp2⟩
            · exact ⟨hs, fun p hp2 _ => hp2⟩
          · have hpF : hasSub ".CATProcess" n = false := by simpa using hp
            rw [hasCATProcess_append n hbi, hpF]
            simp only [Bool.false_eq_true, if_false]
            obtain ⟨hnc0, ⟨b, hb, hbdf⟩, hms⟩ := tidyE_zip_arch h1 hpF
            have hfr : fileReFirst (inP ++ [n]) = some b := by
              rw [fileReFirst_append [n] hbi, fileReFirst_single]
              exact hb
            rw [hfr]
            have hxok : extractOkL ms = true :=
              tidy_extractOk (sizeOf ms) ms le_rfl hms
            rw [hxok]
            simp only [if_true]
            have hfOk : filesOk s := hs.2.1
            have hsOk1 : stOk (mkdirIfAbsent s (outP ++ [b])) :=
              stOk_mkdir hs hout hbdf houtd
            have hsOk2 : stOk (makedirs (mkdirIfAbsent s (outP ++ [b]))
                (".catminer" :: outP ++ [b])) := by
              apply stOk_makedirs hsOk1
              intro x hx
              exact benignPath_mem (benignPath_tmp hout hbdf) hx
            have hmem1 : (outP ++ [b]) ∈ (mkdirIfAbsent s (outP ++ [b])).dirs :=
              mkdirIfAbsent_mem_self hfOk hbdf
            have hmem2 : (outP ++ [b]) ∈ (makedirs (mkdirIfAbsent s (outP ++ [b]))
                (".catminer" :: outP ++ [b])).dirs :=
              makedirs_dirs_mono hmem1
            obtain ⟨ha, hmono⟩ := ih ms (".catminer" :: outP ++ [b]) (outP ++ [b])
              (makedirs (mkdirIfAbsent s (outP ++ [b]))
                (".catminer" :: outP ++ [b]))
              (sizeOf_cons_zip hsz).1 hms (benignPath_tmp hout hbdf)
              (cleanPath_append hout hbdf) hsOk2 (Or.inr hmem2)
            have hmono0 : ∀ p ∈ s.dirs, p.head? ≠ some ".catminer" →
                p ∈ (dir_crawlL cfg ms (".catminer" :: outP ++ [b]) (outP ++ [b])
                  (makedirs (mkdirIfAbsent s (outP ++ [b]))
                    (".catminer" :: outP ++ [b]))).1.dirs := by
              intro p hp2 hnc2
              exact hmono p (makedirs_dirs_mono (mkdirIfAbsent_dirs_mono hp2)) hnc2
            rcases hres : dir_crawlL cfg ms (".catminer" :: outP ++ [b]) (outP ++ [b])
                (makedirs (mkdirIfAbsent s (outP ++ [b]))
                  (".catminer" :: outP ++ [b])) with ⟨s3, e3⟩
            rw [hres] at ha hmono0
            cases e3 with
            | some e =>
              exact ⟨ha, fun p hp2 hnc2 => hmono0 p hp2 hnc2⟩
            | none =>
              constructor
              · exact stOk_rmtree (stOk_bump ha _ _ _) _
              · intro p hp2 hnc2
                have hin3 : p ∈ s3.dirs := hmono0 p hp2 hnc2
                refine rmtree_dirs_mem.mpr ⟨hin3, ?_⟩
                intro hpre
                have hne : (".catminer" :: outP ++ [b] : Path) ≠ [] := by simp
                exact hnc2 (by rw [← isPrefixOf_head hpre hne]; rfl)
      rcases hE : dir_crawlE cfg e inP outP s with ⟨s1, e1⟩
      rw [hE] at hhd
      have hLT : dir_crawlL cfg (e :: es) inP outP s =
          (match dir_crawlE cfg e inP outP s with
            | (s1, some err) => (s1, some err)
            | (s1, none) => dir_crawlL cfg es inP outP s1) := rfl
      rw [hLT, hE]
      cases e1 with
      | some err => exact hhd
      | none =>
        have houtd1 : outP = [] ∨ outP ∈ s1.dirs := by
          rcases houtd with h | h
          · exact Or.inl h
          · exact Or.inr (hhd.2 outP h (clean_head_ne hout))
        obtain ⟨ha2, hb2⟩ := ih es inP outP s1 (sizeOf_cons_tail hsz) h2
          hbi hout hhd.1 houtd1
        exact ⟨ha2, fun p hp hnc => hb2 p (hhd.2 p hp hnc) hnc⟩

/-! ## The run boundary: `_finish` and `begin` -/

theorem stOk_init : stOk St.init := by
  refine ⟨?_, ?_, ?_⟩
  · intro p hp
    exact absurd hp (by simp [St.init])
  · intro p hp
    exact absurd hp (by simp [St.init])
  · intro p hp
    exact absurd hp (by simp [St.init])

theorem catPrefix_iff {p : Path} :
    ([".catminer"] : Path).isPrefixOf p = true ↔ p.head? = some ".catminer" := by
  cases p with
  | nil => simp [List.isPrefixOf]
  | cons c r =>
    constructor
    · intro h
      have h2 : (".catminer" == c && List.isPrefixOf ([] : List String) r) = true := h
      have h3 : ".catminer" = c := by
        have h4 := (Bool.and_eq_true _ _).mp h2
        simpa using h4.1
      simp [← h3]
    · intro h
      have h3 : c = ".catminer" := by simpa using h
      show (".catminer" == c && List.isPrefixOf ([] : List String) r) = true
      simp [h3, List.isPrefixOf]

theorem isPrefixOf_self (p : Path) : p.isPrefixOf p = true :=
  List.isPrefixOf_iff_prefix.mpr (List.prefix_refl p)

theorem orb_iff {a b : Bool} : (a || b) = true ↔ a = true ∨ b = true := by
  cases a <;> cases b <;> simp

theorem finishRun_files (s : St) : (finishRun s).files =
    (if s.dirs.contains ([".catminer"] : Path) = true
      then rmtree { s with log := Ev.removing [".catminer"] :: s.log } [".catminer"]
      else { s with log := Ev.tmpMissingEv :: Ev.removing [".catminer"] :: s.log }).files := rfl

theorem finishRun_dirs (s : St) : (finishRun s).dirs =
    (rm_empty_dirs (if s.dirs.contains ([".catminer"] : Path) = true
      then rmtree { s with log := Ev.removing [".catminer"] :: s.log } [".catminer"]
      else { s with log := Ev.tmpMissingEv :: Ev.removing [".catminer"] :: s.log })).dirs := rfl

theorem rm_empty_dirs_mem {s : St} {p : Path} :
    p ∈ (rm_empty_dirs s).dirs ↔ p ∈ s.dirs ∧
      (s.dirs.any (strictExtends p) || s.files.any (strictExtends p)) = true := by
  unfold rm_empty_dirs
  exact List.mem_filter

/-- Membership in the output tree after `_finish`, for a well-formed state:
files survive unchanged; a directory survives iff it is not under the staging
root and something lies strictly below it. -/
theorem finishRun_mem {s : St} (hs : stOk s) :
    (∀ p, p ∈ (finishRun s).files ↔ p ∈ s.files) ∧
    (∀ p, p ∈ (finishRun s).dirs ↔
      p ∈ s.dirs ∧ p.head? ≠ some ".catminer" ∧
        ((∃ q ∈ s.dirs, q.head? ≠ some ".catminer" ∧ strictExtends p q = true) ∨
         (∃ q ∈ s.files, strictExtends p q = true))) := by
  obtain ⟨hd, hf, hcl⟩ := hs
  by_cases hroot : ([".catminer"] : Path) ∈ s.dirs
  · have hc : s.dirs.contains ([".catminer"] : Path) = true := by simpa using hroot
    constructor
    · intro p
      rw [finishRun_files, if_pos hc, rmtree_files_mem]
      show p ∈ s.files ∧ _ ↔ _
      constructor
      · rintro ⟨h1, _⟩
        exact h1
      · intro h1
        refine ⟨h1, ?_⟩
        intro hpre
        exact (hf p h1).2 (catPrefix_iff.mp hpre)
    · intro p
      rw [finishRun_dirs, if_pos hc, rm_empty_dirs_mem, rmtree_dirs_mem]
      show (p ∈ s.dirs ∧ _) ∧ _ ↔ _
      constructor
      · rintro ⟨⟨h1, h2⟩, h3⟩
        refine ⟨h1, fun hh => h2 (catPrefix_iff.mpr hh), ?_⟩
        rcases orb_iff.mp h3 with h4 | h4
        · obtain ⟨q, hq1, hq2⟩ := List.any_eq_true.mp h4
          obtain ⟨hq3, hq4⟩ := rmtree_dirs_mem.mp hq1
          exact Or.inl ⟨q, hq3, fun hh => hq4 (catPrefix_iff.mpr hh), hq2⟩
        · obtain ⟨q, hq1, hq2⟩ := List.any_eq_true.mp h4
          exact Or.inr ⟨q, (rmtree_files_mem.mp hq1).1, hq2⟩
      · rintro ⟨h1, h2, h3⟩
        refine ⟨⟨h1, fun hpre => h2 (catPrefix_iff.mp hpre)⟩, ?_⟩
        rcases h3 with ⟨q, hq1, hq2, hq3⟩ | ⟨q, hq1, hq2⟩
        · refine orb_iff.mpr (Or.inl (List.any_eq_true.mpr ⟨q, ?_, hq3⟩))
          exact rmtree_dirs_mem.mpr ⟨hq1, fun hpre => hq2 (catPrefix_iff.mp hpre)⟩
        · refine orb_iff.mpr (Or.inr (List.any_eq_true.mpr ⟨q, ?_, hq2⟩))
          exact rmtree_files_mem.mpr ⟨hq1, fun hpre => (hf q hq1).2 (catPrefix_iff.mp hpre)⟩
  · have hnocat : ∀ q ∈ s.dirs, q.head? ≠ some ".catminer" := by
      intro q hq hh
      have hpre : ([".catminer"] : Path).isPrefixOf q = true := catPrefix_iff.mpr hh
      have hne : q ≠ [] := by
        intro h0
        rw [h0] at hh
        simp at hh
      exact hroot (hcl q hq [".catminer"] hpre (by simp))
    have hc : s.dirs.contains ([".catminer"] : Path) = false := by
      by_contra hx
      have hx2 : s.dirs.contains ([".catminer"] : Path) = true := by
        cases hxx : s.dirs.contains ([".catminer"] : Path) with
        | true => rfl
        | false => exact absurd hxx hx
      have : ([".catminer"] : Path) ∈ s.dirs := by simpa using hx2
      exact hroot this
    constructor
    · intro p
      rw [finishRun_files, if_neg (by rw [hc]; simp)]
    · intro p
      rw [finishRun_dirs, if_neg (by rw [hc]; simp), rm_empty_dirs_mem]
      show p ∈ s.dirs ∧ _ ↔ _
      constructor
      · rintro ⟨h1, h3⟩
        refine ⟨h1, hnocat p h1, ?_⟩
        rcases orb_iff.mp h3 with h4 | h4
        · obtain ⟨q, hq1, hq2⟩ := List.any_eq_true.mp h4
          exact Or.inl ⟨q, hq1, hnocat q hq1, hq2⟩
        · obtain ⟨q, hq1, hq2⟩ := List.any_eq_true.mp h4
          exact Or.inr ⟨q, hq1, hq2⟩
      · rintro ⟨h1, _, h3⟩
        refine ⟨h1, ?_⟩
        rcases h3 with ⟨q, hq1, _, hq3⟩ | ⟨q, hq1, hq2⟩
        · exact orb_iff.mpr (Or.inl (List.any_eq_true.mpr ⟨q, hq1, hq3⟩))
        · exact orb_iff.mpr (Or.inr (List.any_eq_true.mpr ⟨q, hq1, hq2⟩))

/-- `_finish` never leaves a staging directory behind (on any prefix-closed
directory set, i.e. any real directory tree). -/
theorem finish_no_staging {s : St} (hcl : prefixClosed s) :
    ∀ p ∈ (finishRun s).dirs, p.head? ≠ some ".catminer" := by
  intro p hp
  rw [finishRun_dirs] at hp
  by_cases hc : s.dirs.contains ([".catminer"] : Path) = true
  · rw [if_pos hc, rm_empty_dirs_mem] at hp
    intro hh
    exact (rmtree_dirs_mem.mp hp.1).2 (catPrefix_iff.mpr hh)
  · rw [if_neg hc, rm_empty_dirs_mem] at hp
    have hp2 : p ∈ s.dirs := hp.1
    intro hh
    have hpre : ([".catminer"] : Path).isPrefixOf p = true := catPrefix_iff.mpr hh
    have hroot2 : ([".catminer"] : Path) ∈ s.dirs :=
      hcl p hp2 [".catminer"] hpre (by simp)
    exact hc (by simpa using hroot2)

theorem finishRun_log (s : St) : (finishRun s).log =
    if s.dirs.contains ([".catminer"] : Path) = true
    then Ev.finishedBatch :: Ev.removing [".catminer"] :: s.log
    else Ev.finishedBatch :: Ev.tmpMissingEv :: Ev.removing [".catminer"] :: s.log := by
  show (Ev.finishedBatch :: (rm_empty_dirs (if s.dirs.contains ([".catminer"] : Path) = true
      then rmtree { s with log := Ev.removing [".catminer"] :: s.log } [".catminer"]
      else { s with log := Ev.tmpMissingEv :: Ev.removing [".catminer"] :: s.log })).log) = _
  split
  · rfl
  · rfl

theorem finishRun_countP (s : St) (f : Ev → Bool)
    (h1 : ∀ p, f (.removing p) = false) (h2 : f .tmpMissingEv = false)
    (h3 : f .finishedBatch = false) :
    (finishRun s).log.countP f = s.log.countP f := by
  rw [finishRun_log]
  split
  · simp [List.countP_cons, h1, h2, h3]
  · simp [List.countP_cons, h1, h2, h3]

theorem finishRun_log_mem {s : St} {e : Ev} (h : e ∈ s.log) :
    e ∈ (finishRun s).log := by
  rw [finishRun_log]
  split
  · simp [h]
  · simp [h]

theorem finishRun_finished (s : St) : Ev.finishedBatch ∈ (finishRun s).log := by
  rw [finishRun_log]
  split
  · exact List.mem_cons_self _ _
  · exact List.mem_cons_self _ _

theorem stOk_logSet {s : St} (hs : stOk s) (L : List Ev) :
    stOk { s with log := L } := hs

theorem strictExtends_of_prefix {q p : Path} (h : q.isPrefixOf p = true)
    (hne : q ≠ p) : strictExtends q p = true := by
  unfold strictExtends
  simp [h, hne]

theorem stOk_rm_empty {s : St} (hs : stOk s) : stOk (rm_empty_dirs s) := by
  obtain ⟨hd, hf, hcl⟩ := hs
  refine ⟨?_, hf, ?_⟩
  · intro p hp
    exact hd p (rm_empty_dirs_mem.mp hp).1
  · intro p hp q hq hqne
    obtain ⟨hp1, hp2⟩ := rm_empty_dirs_mem.mp hp
    have hq1 : q ∈ s.dirs := hcl p hp1 q hq hqne
    by_cases hqp : q = p
    · subst hqp
      exact rm_empty_dirs_mem.mpr ⟨hq1, hp2⟩
    · refine rm_empty_dirs_mem.mpr ⟨hq1, ?_⟩
      exact Bool.or_eq_true_iff.mpr (Or.inl (List.any_eq_true.mpr
        ⟨p, hp1, strictExtends_of_prefix hq hqp⟩))

theorem stOk_finishRun {s : St} (hs : stOk s) : stOk (finishRun s) := by
  have h2 : stOk (if ({ s with log := Ev.removing [".catminer"] :: s.log } : St).dirs.contains
        ([".catminer"] : Path) = true
      then rmtree { s with log := Ev.removing [".catminer"] :: s.log } [".catminer"]
      else { s with log := Ev.tmpMissingEv :: Ev.removing [".catminer"] :: s.log }) := by
    split
    · exact stOk_rmtree (stOk_bump hs _ _ _) _
    · exact stOk_bump hs _ _ _
  exact stOk_logSet (stOk_rm_empty h2) _

/-!
# The claims
-/

/-- C1: the claim says the output directory set is exactly the input
directories that transitively contain at least one document, with empty
branches producing no mirrored directory.  The code diverges from its own
`rm_empty_dirs` docstring: for the input `a/b` with `b` empty and no document
anywhere, the run keeps the mirrored directory `out/a` (only `out/a/b` is
removed), because `rm_empty_dirs`'s recursive call unconditionally
`return True`s, marking every visited subdirectory as content. -/
theorem C1_rm_empty_dirs_bug :
    countView [Entry.dir "a" [Entry.dir "b" []]] = some 0 ∧
    runView {} [Entry.dir "a" [Entry.dir "b" []]] = some ([["a"]], [], none) := by
  decide

/-- C3 counterexample: for an archive whose *name* matches `type_re`
(`a.CATPart` read as a zip), `cat_count` counts one document (the name test
precedes the `is_zipfile` test), while the crawl treats it as an archive
(the `is_zipfile` test comes first) and records no progress advance, so the
two totals differ on this tree. -/
theorem C3_counterexample :
    countView [Entry.zip "a.CATPart" []] = some 1 ∧
    (dir_crawlL {} [Entry.zip "a.CATPart" []] [] [] St.init).2 = none ∧
    (dir_crawlL {} [Entry.zip "a.CATPart" []] [] [] St.init).1.adv = 0 := by
  decide

/-- C3 (amended): on a well-formed tree — in particular no archive is named
like a document, so the two precedence orders agree — the crawl returns
normally, and the number of progress advances it records equals the count
`cat_count` returns for the same tree. -/
theorem C3_count_crawl_agree (cfg : Cfg) (tree : List Entry)
    (hft : cfg.file_type = 0 ∨ cfg.file_type = 1)
    (horc : ∀ p, cfg.orc p = none)
    (ht : tidyL tree = true) :
    ∃ s1, dir_crawlL cfg tree [] [] St.init = (s1, none) ∧
      s1.adv = countL tree ∧ cat_count tree = .ok (countL tree) := by
  obtain ⟨s1, heq, hspec⟩ := crawl_master cfg hft horc (sizeOf tree) tree [] []
    St.init le_rfl ht rfl rfl stOk_init (Or.inl rfl)
  refine ⟨s1, heq, ?_, (cat_count_tidy (sizeOf tree)).1 tree le_rfl ht⟩
  rw [hspec.2.1]
  exact Nat.zero_add _

theorem C3_count_crawl_agree_witness :
    ∃ s1, dir_crawlL {} [Entry.raw "A.CATPart"] [] [] St.init = (s1, none) ∧
      s1.adv = countL [Entry.raw "A.CATPart"] ∧
      cat_count [Entry.raw "A.CATPart"] = .ok (countL [Entry.raw "A.CATPart"]) :=
  C3_count_crawl_agree {} [Entry.raw "A.CATPart"] (Or.inl rfl) (fun _ => rfl)
    (by decide)

/-- C4: the export gate applies its checks in order — the extension
blacklist first (regardless of force-export and of which artifacts exist),
then, unless force-export is set, the already-exported check against the
artifact name with the format's fixed extension; otherwise it proceeds —
and each of the two skip outcomes advances the progress counter by one and
logs a warning carrying the running index and total. -/
theorem C4_gate_order (cfg : Cfg) (kind fname ext : String) (ode : Bool)
    (ae : String → Bool) (n : String) (inP outP : Path) (s : St) :
    (cfg.skip_ext.contains (asciiLower kind) = true →
      exportGate cfg kind fname ode ae = .skipBlacklist) ∧
    (cfg.skip_ext.contains (asciiLower kind) = false →
      cfg.force_export = false → ode = true →
      extension_dict cfg.file_type = some ext →
      ae (fname ++ ext) = true →
      exportGate cfg kind fname ode ae = .skipExported) ∧
    (cfg.skip_ext.contains (asciiLower kind) = false →
      cfg.force_export = false → ode = true →
      extension_dict cfg.file_type = some ext →
      ae (fname ++ ext) = false →
      exportGate cfg kind fname ode ae = .proceed) ∧
    (cfg.skip_ext.contains (asciiLower kind) = false →
      (cfg.force_export = true ∨ ode = false) →
      exportGate cfg kind fname ode ae = .proceed) ∧
    (exportGate cfg (pathKind (inP ++ [n])) n (existsP s outP)
        (fun a => existsP s (outP ++ [a])) = .skipBlacklist →
      docStep cfg n inP outP s =
        ({ s with log := .skippedExt n s.fileNum cfg.total :: s.log,
                  fileNum := s.fileNum + 1, adv := s.adv + 1 }, none)) ∧
    (exportGate cfg (pathKind (inP ++ [n])) n (existsP s outP)
        (fun a => existsP s (outP ++ [a])) = .skipExported →
      docStep cfg n inP outP s =
        ({ s with log := .skippedDone n s.fileNum cfg.total :: s.log,
                  fileNum := s.fileNum + 1, adv := s.adv + 1 }, none)) := by
  refine ⟨?_, ?_, ?_, ?_, ?_, ?_⟩
  · intro h1
    unfold exportGate
    rw [if_pos h1]
  · intro h1 h2 h3 h4 h5
    unfold exportGate
    rw [if_neg (by rw [h1]; simp), if_pos (by rw [h2, h3]; rfl), h4]
    show (if ae (fname ++ ext) then Gate.skipExported else Gate.proceed)
      = Gate.skipExported
    rw [if_pos h5]
  · intro h1 h2 h3 h4 h5
    unfold exportGate
    rw [if_neg (by rw [h1]; simp), if_pos (by rw [h2, h3]; rfl), h4]
    show (if ae (fname ++ ext) then Gate.skipExported else Gate.proceed)
      = Gate.proceed
    rw [if_neg (by rw [h5]; simp)]
  · intro h1 h6
    unfold exportGate
    rcases h6 with h6 | h6
    · rw [if_neg (by rw [h1]; simp), if_neg (by rw [h6]; simp)]
    · rw [if_neg (by rw [h1]; simp), if_neg (by rw [h6]; simp)]
  · intro hg
    have hds : docStep cfg n inP outP s =
        (match exportGate cfg (pathKind (inP ++ [n])) n (existsP s outP)
            (fun a => existsP s (outP ++ [a])) with
          | .skipBlacklist =>
              ({ s with log := .skippedExt n s.fileNum cfg.total :: s.log,
                        fileNum := s.fileNum + 1, adv := s.adv + 1 }, none)
          | .skipExported =>
              ({ s with log := .skippedDone n s.fileNum cfg.total :: s.log,
                        fileNum := s.fileNum + 1, adv := s.adv + 1 }, none)
          | .keyErr => (s, some .keyError)
          | .proceed => export_file cfg (inP ++ [n]) outP s) := rfl
    rw [hds, hg]
  · intro hg
    have hds : docStep cfg n inP outP s =
        (match exportGate cfg (pathKind (inP ++ [n])) n (existsP s outP)
            (fun a => existsP s (outP ++ [a])) with
          | .skipBlacklist =>
              ({ s with log := .skippedExt n s.fileNum cfg.total :: s.log,
                        fileNum := s.fileNum + 1, adv := s.adv + 1 }, none)
          | .skipExported =>
              ({ s with log := .skippedDone n s.fileNum cfg.total :: s.log,
                        fileNum := s.fileNum + 1, adv := s.adv + 1 }, none)
          | .keyErr => (s, some .keyError)
          | .proceed => export_file cfg (inP ++ [n]) outP s) := rfl
    rw [hds, hg]

theorem C4_gate_order_witness :
    exportGate { skip_ext := ["part"] } "Part" "A" true (fun _ => true)
      = .skipBlacklist ∧
    exportGate {} "Part" "A" true (fun _ => true) = .skipExported ∧
    exportGate {} "Part" "A" true (fun _ => false) = .proceed ∧
    exportGate { force_export := true } "Part" "A" true (fun _ => true)
      = .proceed ∧
    docStep { skip_ext := ["part"] } "A.CATPart" [] [] St.init
      = ({ St.init with
            log := [.skippedExt "A.CATPart" 1 0], fileNum := 2, adv := 1 }, none) :=
  ⟨(C4_gate_order { skip_ext := ["part"] } "Part" "A" ".xml" true (fun _ => true)
      "A.CATPart" [] [] St.init).1 (by decide),
   (C4_gate_order {} "Part" "A" ".xml" true (fun _ => true)
      "A.CATPart" [] [] St.init).2.1 (by decide) rfl rfl (by decide) rfl,
   (C4_gate_order {} "Part" "A" ".xml" true (fun _ => false)
      "A.CATPart" [] [] St.init).2.2.1 (by decide) rfl rfl (by decide) rfl,
   (C4_gate_order { force_export := true } "Part" "A" ".xml" true (fun _ => true)
      "A.CATPart" [] [] St.init).2.2.2.1 (by decide) (Or.inl rfl),
   (C4_gate_order { skip_ext := ["part"] } "Part" "A" ".xml" true (fun _ => true)
      "A.CATPart" [] [] St.init).2.2.2.2.1 (by decide)⟩

/-- C6 counterexample: the retry is not "exactly once".  With the object
unavailable on the first two attempts, resolution is attempted three times
before succeeding — the recursion retries as long as the attempt fails, not
at most twice. -/
theorem C6_counterexample :
    cat_type (fun k => decide (k < 2)) false "Part" 0 5
      = some (Browser.app, 3) ∧ 2 < 3 := by
  decide

/-- C6 (amended): the retry recursion is unbounded, not single-shot: if every
attempt raises, resolution never returns (for every recursion-depth budget);
if the first `j` attempts raise and attempt `j` succeeds, resolution returns
after exactly `j + 1` attempts (and, per C10, with the whole-application
browser whenever `j > 0`). -/
theorem C6_retry_unbounded (failsAt : Nat → Bool) (ad : Bool) (ft : String) :
    (∀ k fuel, (∀ j, failsAt j = true) → cat_type failsAt ad ft k fuel = none) ∧
    (∀ j k fuel, (∀ i, i < j → failsAt (k + i) = true) → failsAt (k + j) = false →
      j < fuel →
      cat_type failsAt ad ft k fuel
        = some (if j = 0 then catDispatch ad ft else Browser.app, k + j + 1)) := by
  constructor
  · intro k fuel
    induction fuel generalizing k with
    | zero => intro _; rfl
    | succ f ih =>
      intro hall
      show (if failsAt k then
          (cat_type failsAt ad ft (k + 1) f).map (fun r => (Browser.app, r.2))
        else some (catDispatch ad ft, k + 1)) = none
      rw [if_pos (hall k), ih (k + 1) hall]
      rfl
  · intro j
    induction j with
    | zero =>
      intro k fuel _ hsucc hlt
      cases fuel with
      | zero => exact absurd hlt (by omega)
      | succ f =>
        show (if failsAt k then
            (cat_type failsAt ad ft (k + 1) f).map (fun r => (Browser.app, r.2))
          else some (catDispatch ad ft, k + 1))
          = some (if 0 = 0 then catDispatch ad ft else Browser.app, k + 0 + 1)
        rw [if_neg (by simp only [Nat.add_zero] at hsucc; rw [hsucc]; simp)]
        simp
    | succ j ih =>
      intro k fuel hfails hsucc hlt
      cases fuel with
      | zero => exact absurd hlt (by omega)
      | succ f =>
        show (if failsAt k then
            (cat_type failsAt ad ft (k + 1) f).map (fun r => (Browser.app, r.2))
          else some (catDispatch ad ft, k + 1))
          = some (if j + 1 = 0 then catDispatch ad ft else Browser.app,
              k + (j + 1) + 1)
        have h0 : failsAt k = true := by
          have h1 := hfails 0 (by omega)
          simpa using h1
        rw [if_pos h0]
        have hrec := ih (k + 1) f
          (fun i hi => by
            have h2 := hfails (i + 1) (by omega)
            have he : k + (i + 1) = k + 1 + i := by omega
            rw [he] at h2
            exact h2)
          (by
            have h2 := hsucc
            have he : k + (j + 1) = k + 1 + j := by omega
            rw [he] at h2
            exact h2)
          (by omega)
        rw [hrec]
        show some (Browser.app, k + 1 + j + 1)
          = some (if j + 1 = 0 then catDispatch ad ft else Browser.app,
              k + (j + 1) + 1)
        have he2 : k + 1 + j + 1 = k + (j + 1) + 1 := by omega
        rw [he2]
        simp

theorem C6_retry_unbounded_witness :
    cat_type (fun _ => true) false "Part" 0 4 = none ∧
    cat_type (fun k => decide (k < 1)) false "Part" 0 3
      = some (if 1 = 0 then catDispatch false "Part" else Browser.app,
          0 + 1 + 1) :=
  ⟨(C6_retry_unbounded (fun _ => true) false "Part").1 0 4 (fun _ => rfl),
   (C6_retry_unbounded (fun k => decide (k < 1)) false "Part").2 1 0 3
     (fun i hi => by
       have h0 : i = 0 := by omega
       subst h0
       rfl)
     (by decide) (by decide)⟩

/-- C8 counterexample: an unreadable archive member is fatal, not a
non-match — `process_zip` reads every member's bytes before classifying it,
so the whole count fails on this tree. -/
theorem C8_counterexample :
    countView [Entry.zip "z.zip"
      [Entry.unreadable "junk.bin", Entry.raw "a.CATPart"]] = none := by
  decide

/-- C8 (amended): the counting pass does descend into archives (including
archives nested inside archives) by member names only — on well-formed trees
it returns the exact document count without extraction — but because
`zipfile.read(name)` runs before classification, an unreadable member of any
inspected archive raises and the count fails instead of treating the member
as a non-match. -/
theorem C8_member_read (nm mn : String) (ms rest : List Entry)
    (hnc : isCat nm = false) :
    cat_count (Entry.zip nm (Entry.unreadable mn :: ms) :: rest)
      = .error .memberRead ∧
    (∀ tree, tidyL tree = true → cat_count tree = .ok (countL tree)) := by
  constructor
  · have h1 : cat_countE (Entry.zip nm (Entry.unreadable mn :: ms))
        = Except.error CountErr.memberRead := by
      show (if isCat nm then Except.ok 1
        else process_zipL [] (Entry.unreadable mn :: ms))
        = Except.error CountErr.memberRead
      rw [if_neg (by rw [hnc]; simp)]
      rfl
    show (do
      let a ← cat_countE (Entry.zip nm (Entry.unreadable mn :: ms))
      let b ← cat_countL rest
      return a + b) = Except.error CountErr.memberRead
    rw [h1]
    rfl
  · intro tree ht
    exact (cat_count_tidy (sizeOf tree)).1 tree le_rfl ht

theorem C8_member_read_witness :
    cat_count [Entry.zip "z.zip" [Entry.unreadable "junk.bin"]]
      = .error .memberRead :=
  (C8_member_read "z.zip" "junk.bin" [] [] (by decide)).1

/-- C10: when the first resolution attempt raises `AttributeError`, the
recursive retry's value is discarded and `_cat_type` returns the freshly
constructed whole-application browser — not the kind-specific sub-object the
dispatch would select (e.g. `.Part` for a part document). -/
theorem C10_retry_discards (failsAt : Nat → Bool) (ad : Bool) (ft : String)
    (fuel : Nat) (b : Browser) (j : Nat)
    (h0 : failsAt 0 = true)
    (hres : cat_type failsAt ad ft 0 fuel = some (b, j)) :
    b = Browser.app ∧ catDispatch false "Part" = Browser.part ∧
      Browser.part ≠ Browser.app := by
  cases fuel with
  | zero => exact Option.noConfusion hres
  | succ f =>
    have he : cat_type failsAt ad ft 0 (f + 1)
        = if failsAt 0 then
            (cat_type failsAt ad ft 1 f).map (fun r => (Browser.app, r.2))
          else some (catDispatch ad ft, 1) := rfl
    rw [he, if_pos h0] at hres
    rcases hrec : cat_type failsAt ad ft 1 f with _ | ⟨b2, j2⟩
    · rw [hrec] at hres
      exact Option.noConfusion hres
    · rw [hrec] at hres
      have h3 : some (Browser.app, j2) = some (b, j) := hres
      injection h3 with h4
      refine ⟨(congrArg Prod.fst h4).symm, rfl, by decide⟩

theorem C10_retry_discards_witness :
    Browser.app = Browser.app ∧ catDispatch false "Part" = Browser.part ∧
      Browser.part ≠ Browser.app :=
  C10_retry_discards (fun k => decide (k = 0)) false "Part" 3 Browser.app 2
    rfl (by decide)

theorem isSubList_of_prefix {pat l : List Char} (h : pat.isPrefixOf l = true) :
    isSubList pat l = true := by
  unfold isSubList
  rw [if_pos h]

theorem isSubList_append_right (pat l2 l1 : List Char)
    (h : isSubList pat l2 = true) : isSubList pat (l1 ++ l2) = true := by
  induction l1 with
  | nil => simpa using h
  | cons a r ih =>
    show isSubList pat (a :: (r ++ l2)) = true
    unfold isSubList
    split
    · rfl
    · exact ih

theorem digitChar_isDigit (n : Nat) : (digitChar n).isDigit = true := by
  unfold digitChar
  split <;> decide

/-- C9 counterexample: neither the per-document "Opening" line nor the batch
summary follows the `Finished <task> in <seconds> seconds` pattern — the
summary reports minutes (2 decimals), and the opening line carries no elapsed
time at all.  Only the per-export save is wrapped by the seconds timer. -/
theorem C9_counterexample :
    followsTimerPattern (openingMsg "A.CATPart" 1 2) = false ∧
    hasSub " minutes" (finishMsg 250) = true ∧
    followsTimerPattern (finishMsg 250) = false := by
  decide

/-- C9 (amended): the timer wrapper's completion line — emitted once per
export, around `exporter.save` — always follows the literal pattern
`Finished <task> in <seconds> seconds` with the elapsed seconds carrying
exactly 4 decimal digits; the batch summary instead reports minutes with
exactly 2 decimal digits and a different phrase. -/
theorem C9_timer_format (task : String) (t m : Nat) :
    followsTimerPattern (timerMsg task t) = true ∧
    (∃ intPart : String,
      fmt4 t = intPart ++ "." ++ ⟨[digitChar (t / 1000), digitChar (t / 100),
        digitChar (t / 10), digitChar t]⟩ ∧
      (∀ d ∈ [digitChar (t / 1000), digitChar (t / 100), digitChar (t / 10),
        digitChar t], d.isDigit = true)) ∧
    (∃ intPart : String,
      finishMsg m = "Finished batch export in "
        ++ (intPart ++ "." ++ ⟨[digitChar (m / 10), digitChar m]⟩)
        ++ " minutes.\n" ∧
      (∀ d ∈ [digitChar (m / 10), digitChar m], d.isDigit = true)) := by
  refine ⟨?_, ?_, ?_⟩
  · have hsd : (" seconds." : String).data = (" seconds" : String).data ++ ['.'] := by
      decide
    have hd : (timerMsg task t).data
        = ("Finished " : String).data ++ (task.data ++ ((" in " : String).data
            ++ ((fmt4 t).data ++ ((" seconds" : String).data ++ ['.'])))) := by
      show ("Finished " ++ task ++ " in " ++ fmt4 t ++ " seconds.").data = _
      simp [String.data_append]
    show (hasSub "Finished " (timerMsg task t)
      && hasSub " seconds" (timerMsg task t)) = true
    have h1 : hasSub "Finished " (timerMsg task t) = true := by
      unfold hasSub
      rw [hd]
      exact isSubList_of_prefix
        (List.isPrefixOf_iff_prefix.mpr (List.prefix_append _ _))
    have h2 : hasSub " seconds" (timerMsg task t) = true := by
      unfold hasSub
      rw [hd]
      refine isSubList_append_right _ _ _ ?_
      refine isSubList_append_right _ _ _ ?_
      refine isSubList_append_right _ _ _ ?_
      refine isSubList_append_right _ _ _ ?_
      exact isSubList_of_prefix
        (List.isPrefixOf_iff_prefix.mpr (List.prefix_append _ _))
    rw [h1, h2]
    rfl
  · refine ⟨toString (t / 10000), rfl, ?_⟩
    intro d hd2
    simp only [List.mem_cons, List.not_mem_nil, or_false] at hd2
    rcases hd2 with h | h | h | h <;> (subst h; exact digitChar_isDigit _)
  · refine ⟨toString (m / 100), rfl, ?_⟩
    intro d hd2
    simp only [List.mem_cons, List.not_mem_nil, or_false] at hd2
    rcases hd2 with h | h <;> (subst h; exact digitChar_isDigit _)

theorem C9_timer_format_witness :
    followsTimerPattern (timerMsg "export" 12345) = true :=
  (C9_timer_format "export" 12345 250).1

/-- C7: when the pre-`try` counting pass succeeds, the run returns normally
whatever happens inside the crawl; `_finish` runs in every case (its summary
is in the log); an interrupt is logged as a graceful stop; and any other
crawl failure is logged as criticals.  (When the counting pass itself raises,
the exception propagates: it happens before the `try` block.) -/
theorem C7_run_boundary (cfg : Cfg) (tree : List Entry) (s0 : St) (n : Nat)
    (hcc : cat_count tree = .ok n) :
    ∃ r : RunOut, beginRunFrom cfg tree s0 = .ok r ∧
      Ev.finishedBatch ∈ r.final.log ∧
      (r.crawlErr = some .interrupt → Ev.gracefulStop ∈ r.final.log) ∧
      (∀ e, r.crawlErr = some e → e ≠ .interrupt →
        Ev.criticalErr ∈ r.final.log) := by
  rcases hcr : dir_crawlL { cfg with total := n } tree [] [] s0 with ⟨s1, e1⟩
  cases e1 with
  | none =>
    refine ⟨⟨finishRun s1, none⟩, ?_, finishRun_finished _, ?_, ?_⟩
    · simp only [beginRunFrom, hcc, hcr]
    · intro h
      exact absurd h (by simp)
    · intro e he _
      exact absurd he (by simp)
  | some e =>
    cases e with
    | interrupt =>
      refine ⟨⟨finishRun { s1 with log := Ev.gracefulStop :: s1.log },
          some .interrupt⟩, ?_, finishRun_finished _, ?_, ?_⟩
      · simp only [beginRunFrom, hcc, hcr]
      · intro _
        exact finishRun_log_mem (List.mem_cons_self _ _)
      · intro e2 he2 hne
        injection he2 with h3
        exact absurd h3.symm hne
    | indexError =>
      refine ⟨⟨finishRun { s1 with log := Ev.criticalErr :: s1.log },
          some .indexError⟩, ?_, finishRun_finished _, ?_, ?_⟩
      · simp only [beginRunFrom, hcc, hcr]
      · intro h
        exact absurd h (by simp)
      · intro e2 _ _
        exact finishRun_log_mem (List.mem_cons_self _ _)
    | keyError =>
      refine ⟨⟨finishRun { s1 with log := Ev.criticalErr :: s1.log },
          some .keyError⟩, ?_, finishRun_finished _, ?_, ?_⟩
      · simp only [beginRunFrom, hcc, hcr]
      · intro h
        exact absurd h (by simp)
      · intro e2 _ _
        exact finishRun_log_mem (List.mem_cons_self _ _)
    | extractError =>
      refine ⟨⟨finishRun { s1 with log := Ev.criticalErr :: s1.log },
          some .extractError⟩, ?_, finishRun_finished _, ?_, ?_⟩
      · simp only [beginRunFrom, hcc, hcr]
      · intro h
        exact absurd h (by simp)
      · intro e2 _ _
        exact finishRun_log_mem (List.mem_cons_self _ _)
    | exportError =>
      refine ⟨⟨finishRun { s1 with log := Ev.criticalErr :: s1.log },
          some .exportError⟩, ?_, finishRun_finished _, ?_, ?_⟩
      · simp only [beginRunFrom, hcc, hcr]
      · intro h
        exact absurd h (by simp)
      · intro e2 _ _
        exact finishRun_log_mem (List.mem_cons_self _ _)

theorem C7_run_boundary_witness :
    ∃ r : RunOut, beginRunFrom {} [Entry.raw "A.CATPart"] St.init = .ok r ∧
      Ev.finishedBatch ∈ r.final.log ∧
      (r.crawlErr = some .interrupt → Ev.gracefulStop ∈ r.final.log) ∧
      (∀ e, r.crawlErr = some e → e ≠ .interrupt →
        Ev.criticalErr ∈ r.final.log) :=
  C7_run_boundary {} [Entry.raw "A.CATPart"] St.init 1 rfl

/-- C5 counterexample: there is no `try/finally` around the per-archive
cleanup — when the export of a document inside an extracted archive raises,
the crawl returns with the staging directory `out/.catminer/z` still present
in the directory set. -/
theorem C5_counterexample :
    (dir_crawlE
      { orc := fun p => if p = [".catminer", "z", "a.CATPart"]
          then some .exportError else none }
      (Entry.zip "z.zip" [Entry.raw "a.CATPart"]) [] [] St.init).2
        = some .exportError ∧
    ([".catminer", "z"] : Path) ∈ (dir_crawlE
      { orc := fun p => if p = [".catminer", "z", "a.CATPart"]
          then some .exportError else none }
      (Entry.zip "z.zip" [Entry.raw "a.CATPart"]) [] [] St.init).1.dirs := by
  decide

/-- C5 (amended): the per-archive staging directory is deleted only when the
sub-traversal of the extracted contents returns *normally* (if it raises, the
staging directory survives the crawl — see the counterexample); nevertheless
the claim's second half stands: `_finish` runs in every case and clears the
staging workspace, so after any completed run — including runs whose crawl
raised or was interrupted — no directory under `.catminer` remains. -/
theorem C5_staging_cleanup (cfg : Cfg) (tree : List Entry) (nm base : String)
    (ms : List Entry) (inP outP : Path) (s s1 : St)
    (ht : tidyL tree = true) :
    (hasCATProcess (inP ++ [nm]) = false →
      fileReFirst (inP ++ [nm]) = some base →
      dir_crawlE cfg (.zip nm ms) inP outP s = (s1, none) →
      (".catminer" :: outP ++ [base]) ∉ s1.dirs) ∧
    (∀ r : RunOut, beginRunFrom cfg tree St.init = .ok r →
      ∀ p ∈ r.final.dirs, p.head? ≠ some ".catminer") := by
  constructor
  · intro hproc hfr hres
    have he : dir_crawlE cfg (.zip nm ms) inP outP s =
        (if hasCATProcess (inP ++ [nm]) then
          (if isCatPath (inP ++ [nm]) then docStep cfg nm inP outP s
           else (s, none))
         else
          match fileReFirst (inP ++ [nm]) with
          | none => (s, some .indexError)
          | some base2 =>
            if extractOkL ms then
              match dir_crawlL cfg ms (".catminer" :: outP ++ [base2])
                  (outP ++ [base2])
                  (makedirs (mkdirIfAbsent s (outP ++ [base2]))
                    (".catminer" :: outP ++ [base2])) with
              | (s3, some e) => (s3, some e)
              | (s3, none) =>
                  (rmtree { s3 with
                      log := .removing (".catminer" :: outP ++ [base2]) :: s3.log }
                    (".catminer" :: outP ++ [base2]), none)
            else (makedirs (mkdirIfAbsent s (outP ++ [base2]))
              (".catminer" :: outP ++ [base2]), some .extractError)) := rfl
    rw [he, hproc] at hres
    simp only [Bool.false_eq_true, if_false] at hres
    rw [hfr] at hres
    cases hx : extractOkL ms with
    | false =>
      rw [hx] at hres
      simp only [Bool.false_eq_true, if_false] at hres
      have h2 := congrArg Prod.snd hres
      exact absurd h2 (by simp)
    | true =>
      rw [hx] at hres
      simp only [if_true] at hres
      rcases hsub : dir_crawlL cfg ms (".catminer" :: outP ++ [base])
          (outP ++ [base])
          (makedirs (mkdirIfAbsent s (outP ++ [base]))
            (".catminer" :: outP ++ [base])) with ⟨s3, e3⟩
      rw [hsub] at hres
      cases e3 with
      | some e =>
        have h2 := congrArg Prod.snd hres
        exact absurd h2 (by simp)
      | none =>
        have h2 : rmtree { s3 with
            log := Ev.removing (".catminer" :: outP ++ [base]) :: s3.log }
            (".catminer" :: outP ++ [base]) = s1 := congrArg Prod.fst hres
        intro hmem
        rw [← h2] at hmem
        exact (rmtree_dirs_mem.mp hmem).2 (isPrefixOf_self _)
  · intro r hr p hp
    rcases hccv : cat_count tree with e | n
    · have hr2 : (Except.error e : Except CountErr RunOut) = .ok r := by
        rw [← hr]
        unfold beginRunFrom
        rw [hccv]
      exact Except.noConfusion hr2
    · rcases hcr : dir_crawlL { cfg with total := n } tree [] [] St.init
        with ⟨s2, e1⟩
      have hs2 : stOk s2 := by
        have h3 := (crawl_stOk_any { cfg with total := n } (sizeOf tree) tree
          [] [] St.init le_rfl ht rfl rfl stOk_init (Or.inl rfl)).1
        rw [hcr] at h3
        exact h3
      cases e1 with
      | none =>
        simp only [beginRunFrom, hccv, hcr] at hr
        injection hr with h5
        subst h5
        exact finish_no_staging hs2.2.2 p hp
      | some e =>
        cases e with
        | interrupt =>
          simp only [beginRunFrom, hccv, hcr] at hr
          injection hr with h5
          subst h5
          exact @finish_no_staging { s2 with log := Ev.gracefulStop :: s2.log }
            hs2.2.2 p hp
        | indexError =>
          simp only [beginRunFrom, hccv, hcr] at hr
          injection hr with h5
          subst h5
          exact @finish_no_staging { s2 with log := Ev.criticalErr :: s2.log }
            hs2.2.2 p hp
        | keyError =>
          simp only [beginRunFrom, hccv, hcr] at hr
          injection hr with h5
          subst h5
          exact @finish_no_staging { s2 with log := Ev.criticalErr :: s2.log }
            hs2.2.2 p hp
        | extractError =>
          simp only [beginRunFrom, hccv, hcr] at hr
          injection hr with h5
          subst h5
          exact @finish_no_staging { s2 with log := Ev.criticalErr :: s2.log }
            hs2.2.2 p hp
        | exportError =>
          simp only [beginRunFrom, hccv, hcr] at hr
          injection hr with h5
          subst h5
          exact @finish_no_staging { s2 with log := Ev.criticalErr :: s2.log }
            hs2.2.2 p hp

theorem C5_staging_cleanup_witness :
    (".catminer" :: ([] : Path) ++ ["z"]) ∉
      (dir_crawlE ({} : Cfg) (Entry.zip "z.zip" [Entry.raw "a.CATPart"])
        [] [] St.init).1.dirs :=
  (C5_staging_cleanup {} [] "z.zip" "z" [Entry.raw "a.CATPart"] [] [] St.init
      (dir_crawlE ({} : Cfg) (Entry.zip "z.zip" [Entry.raw "a.CATPart"])
        [] [] St.init).1 rfl).1
    (by decide) (by decide) (by decide)

/-- C2 counterexample: with a blacklisted document kind, the second run skips
the document with reason "extension in skip list", not "already exported" —
the blacklist check precedes the already-exported check on every run, so the
claim's "every document ... already exported" fails on any tree with a
blacklisted document. -/
theorem C2_counterexample :
    countL [Entry.raw "A.CATPart"] = 1 ∧
    secondRunSkips { skip_ext := ["part"] } [Entry.raw "A.CATPart"]
      = some (0, 0, 1) := by
  decide

/-- C2 (amended): on a well-formed tree with all exports succeeding and
force-export off, a second run returns normally, leaves the output tree
unchanged (directories and files membership-equal to the first run's), opens
no document, and skips every document — with reason "already exported" for
exactly the documents that pass the extension blacklist, and "extension in
skip list" for the blacklisted ones. -/
theorem C2_idempotent (cfg : Cfg) (tree : List Entry)
    (ht : tidyL tree = true)
    (hforce : cfg.force_export = false)
    (hft : cfg.file_type = 0 ∨ cfg.file_type = 1)
    (horc : ∀ p, cfg.orc p = none) :
    ∃ r1 r2 : RunOut,
      beginRunFrom cfg tree St.init = .ok r1 ∧
      beginRunFrom cfg tree (carryFS r1.final) = .ok r2 ∧
      r1.crawlErr = none ∧ r2.crawlErr = none ∧
      (∀ p, p ∈ r2.final.dirs ↔ p ∈ r1.final.dirs) ∧
      (∀ p, p ∈ r2.final.files ↔ p ∈ r1.final.files) ∧
      r2.final.log.countP Ev.isOpening = 0 ∧
      r2.final.log.countP Ev.isSkippedDone = okDocsL cfg tree ∧
      r2.final.log.countP Ev.isSkippedExt = blkL cfg tree ∧
      okDocsL cfg tree + blkL cfg tree = countL tree := by
  have hcc : cat_count tree = .ok (countL tree) :=
    (cat_count_tidy (sizeOf tree)).1 tree le_rfl ht
  have hft1 : ({ cfg with total := countL tree } : Cfg).file_type = 0 ∨
      ({ cfg with total := countL tree } : Cfg).file_type = 1 := hft
  have horc1 : ∀ p, ({ cfg with total := countL tree } : Cfg).orc p = none := horc
  obtain ⟨s1, hcr1, hspec1⟩ := crawl_master { cfg with total := countL tree }
    hft1 horc1 (sizeOf tree) tree [] [] St.init le_rfl ht rfl rfl stOk_init
    (Or.inl rfl)
  obtain ⟨hok1, hadv1, hfi1, hdi1, hcnt1⟩ := hspec1
  have hb1 : beginRunFrom cfg tree St.init = .ok ⟨finishRun s1, none⟩ := by
    simp only [beginRunFrom, hcc, hcr1]
  obtain ⟨hFf1, hFd1⟩ := finishRun_mem hok1
  have hfiles1 : ∀ p, p ∈ s1.files ↔
      p ∈ artifactsL { cfg with total := countL tree } [] tree := by
    intro p
    rw [hfi1 p]
    constructor
    · rintro (h | h)
      · exact h
      · exact absurd h (by simp [St.init])
    · exact Or.inl
  have hdirs1 : ∀ p, p.head? ≠ some ".catminer" →
      (p ∈ s1.dirs ↔ p ∈ mirrorsL [] tree) := by
    intro p hpnc
    rw [hdi1 p hpnc]
    constructor
    · rintro (h | h)
      · exact h
      · exact absurd h (by simp [St.init])
    · exact Or.inl
  have hok2init : stOk (carryFS (finishRun s1)) := stOk_finishRun hok1
  obtain ⟨s2, hcr2, hspec2⟩ := crawl_master { cfg with total := countL tree }
    hft1 horc1 (sizeOf tree) tree [] [] (carryFS (finishRun s1)) le_rfl ht
    rfl rfl hok2init (Or.inl rfl)
  obtain ⟨hok2, hadv2, hfi2, hdi2, hcnt2⟩ := hspec2
  have hb2 : beginRunFrom cfg tree (carryFS (finishRun s1))
      = .ok ⟨finishRun s2, none⟩ := by
    simp only [beginRunFrom, hcc, hcr2]
  obtain ⟨hFf2, hFd2⟩ := finishRun_mem hok2
  have hcd : (carryFS (finishRun s1)).dirs = (finishRun s1).dirs := rfl
  have hcf : (carryFS (finishRun s1)).files = (finishRun s1).files := rfl
  have hfiles2 : ∀ p, p ∈ s2.files ↔ p ∈ s1.files := by
    intro p
    rw [hfi2 p, hcf, hFf1 p, hfiles1 p]
    tauto
  have hF1dirs_sub : ∀ p, p ∈ (finishRun s1).dirs → p ∈ mirrorsL [] tree := by
    intro p hp
    obtain ⟨h1, h2, _⟩ := (hFd1 p).mp hp
    exact (hdirs1 p h2).mp h1
  have hdirs2 : ∀ p, p.head? ≠ some ".catminer" →
      (p ∈ s2.dirs ↔ p ∈ s1.dirs) := by
    intro p hpnc
    rw [hdi2 p hpnc, hcd, hdirs1 p hpnc]
    constructor
    · rintro (h | h)
      · exact h
      · exact hF1dirs_sub p h
    · exact Or.inl
  have hdirsF : ∀ p, p ∈ (finishRun s2).dirs ↔ p ∈ (finishRun s1).dirs := by
    intro p
    rw [hFd2 p, hFd1 p]
    constructor
    · rintro ⟨h1, h2, h3⟩
      refine ⟨(hdirs2 p h2).mp h1, h2, ?_⟩
      rcases h3 with ⟨q, hq1, hq2, hq3⟩ | ⟨q, hq1, hq2⟩
      · exact Or.inl ⟨q, (hdirs2 q hq2).mp hq1, hq2, hq3⟩
      · exact Or.inr ⟨q, (hfiles2 q).mp hq1, hq2⟩
    · rintro ⟨h1, h2, h3⟩
      refine ⟨(hdirs2 p h2).mpr h1, h2, ?_⟩
      rcases h3 with ⟨q, hq1, hq2, hq3⟩ | ⟨q, hq1, hq2⟩
      · exact Or.inl ⟨q, (hdirs2 q hq2).mpr hq1, hq2, hq3⟩
      · exact Or.inr ⟨q, (hfiles2 q).mpr hq1, hq2⟩
  have hfilesF : ∀ p, p ∈ (finishRun s2).files ↔ p ∈ (finishRun s1).files := by
    intro p
    rw [hFf2 p, hFf1 p]
    exact hfiles2 p
  have hsat : ∀ a ∈ artifactsL { cfg with total := countL tree } [] tree,
      a ∈ (carryFS (finishRun s1)).files := by
    intro a ha
    rw [hcf, hFf1 a]
    exact (hfiles1 a).mpr ha
  have hforce1 : ({ cfg with total := countL tree } : Cfg).force_export
      = false := hforce
  obtain ⟨c1, c2, c3⟩ := hcnt2 hsat hforce1
  have hcinv := cfg_inv { cfg with total := countL tree } cfg rfl rfl
    (sizeOf tree) tree le_rfl []
  have hzero : ∀ f : Ev → Bool,
      (carryFS (finishRun s1)).log.countP f = 0 := fun f => rfl
  have hcountOpen : (finishRun s2).log.countP Ev.isOpening = 0 := by
    rw [finishRun_countP s2 Ev.isOpening (fun q => rfl) rfl rfl, c1,
      hzero Ev.isOpening]
  have hcountDone : (finishRun s2).log.countP Ev.isSkippedDone
      = okDocsL cfg tree := by
    rw [finishRun_countP s2 Ev.isSkippedDone (fun q => rfl) rfl rfl, c2,
      hzero Ev.isSkippedDone, hcinv.2.1, Nat.zero_add]
  have hcountExt : (finishRun s2).log.countP Ev.isSkippedExt
      = blkL cfg tree := by
    rw [finishRun_countP s2 Ev.isSkippedExt (fun q => rfl) rfl rfl, c3,
      hzero Ev.isSkippedExt, hcinv.2.2, Nat.zero_add]
  exact ⟨⟨finishRun s1, none⟩, ⟨finishRun s2, none⟩, hb1, hb2, rfl, rfl,
    hdirsF, hfilesF, hcountOpen, hcountDone, hcountExt,
    count_split cfg (sizeOf tree) tree le_rfl ht⟩

theorem C2_idempotent_witness :
    ∃ r1 r2 : RunOut,
      beginRunFrom {} [Entry.raw "A.CATPart"] St.init = .ok r1 ∧
      beginRunFrom {} [Entry.raw "A.CATPart"] (carryFS r1.final) = .ok r2 ∧
      r1.crawlErr = none ∧ r2.crawlErr = none ∧
      (∀ p, p ∈ r2.final.dirs ↔ p ∈ r1.final.dirs) ∧
      (∀ p, p ∈ r2.final.files ↔ p ∈ r1.final.files) ∧
      r2.final.log.countP Ev.isOpening = 0 ∧
      r2.final.log.countP Ev.isSkippedDone = okDocsL {} [Entry.raw "A.CATPart"] ∧
      r2.final.log.countP Ev.isSkippedExt = blkL {} [Entry.raw "A.CATPart"] ∧
      okDocsL {} [Entry.raw "A.CATPart"] + blkL {} [Entry.raw "A.CATPart"]
        = countL [Entry.raw "A.CATPart"] :=
  C2_idempotent {} [Entry.raw "A.CATPart"] (by decide) rfl (Or.inl rfl)
    (fun _ => rfl)

end Catminer
